import Mathlib

/-!
# Verification of the sva-bus-server proxy core

A shallow embedding, in Lean 4, of the data-plane core of the
`sva-bus-server` reverse proxy: the cache-key builder and cache policy
(`src/proxy/proxy-cache.ts`), the cache-aside + SWR wrapper
(`src/cache/cache.service.ts`), the fixed-window rate limiter and API-key
lifecycle (`src/api-keys/api-keys.service.ts`), the upstream HTTP client's
retry loop (`src/http-client/http-client.service.ts`), the proxy
controller's header normalization (`src/proxy/proxy.controller.ts`), and
the admin cache invalidator (`src/cache/cache-admin.service.ts`).

TypeScript/JavaScript data is modelled as follows: strings are Lean
`String` (lists of unicode scalar values), numbers are `Nat`/`Int`/`Rat`
with explicit wrap-around where the code relies on 32-bit arithmetic,
`undefined`/`null` are `Option.none`, records are structures or
association lists, and promise-returning methods become pure functions of
the ambient state they read plus explicit outcome parameters for the
effects they await (store reads, store write success, upstream attempt
outcomes).
-/

namespace SvaBus

/-! ## JavaScript string primitives

The embedded code relies on a handful of JS string built-ins:
`trim`, `toLowerCase`, `split`, `startsWith`, `includes`. They are
modelled here over `List Char`. `toLowerCase` is modelled on the ASCII
range (the only range exercised by header names, directives and the
hexadecimal alphabet that appear in this code base). -/

/-- The WhiteSpace ∪ LineTerminator set trimmed by JS `String.prototype.trim`. -/
def isJsWs (c : Char) : Bool :=
  [9, 10, 11, 12, 13, 32, 160, 5760, 8192, 8193, 8194, 8195, 8196, 8197,
   8198, 8199, 8200, 8201, 8202, 8232, 8233, 8239, 8287, 12288, 65279].contains c.toNat

/-- JS `String.prototype.trim` on the character list. -/
def jsTrimL (l : List Char) : List Char :=
  ((l.dropWhile isJsWs).reverse.dropWhile isJsWs).reverse

/-- JS `String.prototype.trim`. -/
def jsTrim (s : String) : String := ⟨jsTrimL s.data⟩

/-- JS `String.prototype.toLowerCase`, modelled on the ASCII range
(`A`–`Z`, scalar values 65–90, map to 97–122). -/
def lowCh (c : Char) : Char :=
  if 65 ≤ c.toNat ∧ c.toNat ≤ 90 then Char.ofNat (c.toNat + 32) else c

/-- Lowercase a character list. -/
def lowL (l : List Char) : List Char := l.map lowCh

/-- Lowercase a string (JS `toLowerCase`, ASCII model). -/
def jsLower (s : String) : String := ⟨lowL s.data⟩

/-- Does `n` occur at the head of `h`? (JS `String.prototype.startsWith` core). -/
def leadsWith : List Char → List Char → Bool
  | [], _ => true
  | _ :: _, [] => false
  | a :: n, b :: h => a == b && leadsWith n h

/-- JS `String.prototype.startsWith`. -/
def strLeads (p s : String) : Bool := leadsWith p.data s.data

/-- Does `n` occur somewhere inside `h`? (JS `String.prototype.includes` core). -/
def hasSub (n : List Char) : List Char → Bool
  | [] => leadsWith n []
  | b :: h => leadsWith n (b :: h) || hasSub n h

/-- JS `String.prototype.includes`. -/
def strHas (hay n : String) : Bool := hasSub n.data hay.data

/-- JS `String.prototype.split` with a single-character separator, on lists. -/
def splitChL (sep : Char) : List Char → List (List Char)
  | [] => [[]]
  | c :: t =>
    let r := splitChL sep t
    if c == sep then [] :: r
    else match r with
      | [] => [[c]]
      | h :: r' => (c :: h) :: r'

/-- JS `String.prototype.split` with a single-character separator. -/
def splitCh (sep : Char) (s : String) : List String :=
  (splitChL sep s.data).map (fun l => ⟨l⟩)

/-! ## SHA-256 (`src/utils/hash.ts`)

`sha256Hex` in the source is `createHash('sha256').update(value).digest('hex')`
from `node:crypto`; the algorithm itself (FIPS 180-4) is reproduced here over
`Nat` with explicit `% 2^32` wrap-around, acting on the UTF-8 bytes of the
input string and emitting the 64-character lowercase hex digest. -/

/-- Truncate to 32 bits. -/
def m32 (x : Nat) : Nat := x % 4294967296

/-- Right rotation of a 32-bit word (input assumed < 2^32). -/
def rotr (n x : Nat) : Nat := (x >>> n) ||| m32 (x <<< (32 - n))

/-- SHA-256 Σ0. -/
def bigS0 (x : Nat) : Nat := (rotr 2 x) ^^^ (rotr 13 x) ^^^ (rotr 22 x)

/-- SHA-256 Σ1. -/
def bigS1 (x : Nat) : Nat := (rotr 6 x) ^^^ (rotr 11 x) ^^^ (rotr 25 x)

/-- SHA-256 σ0. -/
def smlS0 (x : Nat) : Nat := (rotr 7 x) ^^^ (rotr 18 x) ^^^ (x >>> 3)

/-- SHA-256 σ1. -/
def smlS1 (x : Nat) : Nat := (rotr 17 x) ^^^ (rotr 19 x) ^^^ (x >>> 10)

/-- SHA-256 Ch. -/
def chF (x y z : Nat) : Nat := (x &&& y) ^^^ ((x ^^^ 4294967295) &&& z)

/-- SHA-256 Maj. -/
def majF (x y z : Nat) : Nat := (x &&& y) ^^^ (x &&& z) ^^^ (y &&& z)

/-- The 64 SHA-256 round constants. -/
def shaK : List Nat :=
  [1116352408, 1899447441, 3049323471, 3921009573,
   961987163, 1508970993, 2453635748, 2870763221,
   3624381080, 310598401, 607225278, 1426881987,
   1925078388, 2162078206, 2614888103, 3248222580,
   3835390401, 4022224774, 264347078, 604807628,
   770255983, 1249150122, 1555081692, 1996064986,
   2554220882, 2821834349, 2952996808, 3210313671,
   3336571891, 3584528711, 113926993, 338241895,
   666307205, 773529912, 1294757372, 1396182291,
   1695183700, 1986661051, 2177026350, 2456956037,
   2730485921, 2820302411, 3259730800, 3345764771,
   3516065817, 3600352804, 4094571909, 275423344,
   430227734, 506948616, 659060556, 883997877,
   958139571, 1322822218, 1537002063, 1747873779,
   1955562222, 2024104815, 2227730452, 2361852424,
   2428436474, 2756734187, 3204031479, 3329325298]

/-- The eight 32-bit words of a SHA-256 chaining state. -/
structure Hash8 where
  w0 : Nat
  w1 : Nat
  w2 : Nat
  w3 : Nat
  w4 : Nat
  w5 : Nat
  w6 : Nat
  w7 : Nat
  deriving Repr, DecidableEq

/-- The SHA-256 initial state. -/
def shaH0 : Hash8 :=
  ⟨1779033703, 3144134277, 1013904242, 2773480762,
   1359893119, 2600822924, 528734635, 1541459225⟩

/-- UTF-8 encoding of one unicode scalar value. -/
def utf8Ch (c : Char) : List Nat :=
  let n := c.toNat
  if n < 128 then [n]
  else if n < 2048 then [192 ||| (n >>> 6), 128 ||| (n &&& 63)]
  else if n < 65536 then
    [224 ||| (n >>> 12), 128 ||| ((n >>> 6) &&& 63), 128 ||| (n &&& 63)]
  else
    [240 ||| (n >>> 18), 128 ||| ((n >>> 12) &&& 63),
     128 ||| ((n >>> 6) &&& 63), 128 ||| (n &&& 63)]

/-- UTF-8 bytes of a string. -/
def utf8Bytes (l : List Char) : List Nat := l.flatMap utf8Ch

/-- Big-endian 64-bit byte expansion. -/
def be64 (n : Nat) : List Nat :=
  [(n >>> 56) &&& 255, (n >>> 48) &&& 255, (n >>> 40) &&& 255, (n >>> 32) &&& 255,
   (n >>> 24) &&& 255, (n >>> 16) &&& 255, (n >>> 8) &&& 255, n &&& 255]

/-- SHA-256 padding: append `0x80`, zeros to 56 mod 64, and the bit length. -/
def shaPad (msg : List Nat) : List Nat :=
  let len := msg.length
  msg ++ 128 :: List.replicate ((119 - len % 64) % 64) 0 ++ be64 (8 * len)

/-- Big-endian packing of bytes into 32-bit words. -/
def bytesToWords : List Nat → List Nat
  | a :: b :: c :: d :: t => (((a * 256 + b) * 256 + c) * 256 + d) :: bytesToWords t
  | _ => []

/-- Split a word list into 16-word blocks (padded input is always a multiple
of 16 words; a ragged tail would become a short final block). -/
def toBlocks : List Nat → List (List Nat)
  | [] => []
  | w0 :: w1 :: w2 :: w3 :: w4 :: w5 :: w6 :: w7 ::
    w8 :: w9 :: w10 :: w11 :: w12 :: w13 :: w14 :: w15 :: t =>
    [w0, w1, w2, w3, w4, w5, w6, w7, w8, w9, w10, w11, w12, w13, w14, w15] ::
      toBlocks t
  | l => [l]

/-- Message-schedule extension: prepend `n` derived words to the reversed list. -/
def schedExt : Nat → List Nat → List Nat
  | 0, rev => rev
  | n + 1, rev =>
    let w2 := rev.getD 1 0
    let w7 := rev.getD 6 0
    let w15 := rev.getD 14 0
    let w16 := rev.getD 15 0
    schedExt n (m32 (smlS1 w2 + w7 + smlS0 w15 + w16) :: rev)

/-- The 64-word message schedule of one block. -/
def schedule (block : List Nat) : List Nat :=
  (schedExt 48 block.reverse).reverse

/-- One SHA-256 compression round. -/
def round1 (st : Hash8) (kw : Nat × Nat) : Hash8 :=
  let t1 := m32 (st.w7 + bigS1 st.w4 + chF st.w4 st.w5 st.w6 + kw.1 + kw.2)
  let t2 := m32 (bigS0 st.w0 + majF st.w0 st.w1 st.w2)
  ⟨m32 (t1 + t2), st.w0, st.w1, st.w2, m32 (st.w3 + t1), st.w4, st.w5, st.w6⟩

/-- Compress one block into the chaining state. -/
def compress (h : Hash8) (block : List Nat) : Hash8 :=
  let f := (shaK.zip (schedule block)).foldl round1 h
  ⟨m32 (h.w0 + f.w0), m32 (h.w1 + f.w1), m32 (h.w2 + f.w2), m32 (h.w3 + f.w3),
   m32 (h.w4 + f.w4), m32 (h.w5 + f.w5), m32 (h.w6 + f.w6), m32 (h.w7 + f.w7)⟩

/-- SHA-256 over a byte list, as the final chaining state. -/
def sha256State (msg : List Nat) : Hash8 :=
  (toBlocks (bytesToWords (shaPad msg))).foldl compress shaH0

/-- One lowercase hex digit: digits get scalar values 48–57, letters
`a`–`f` get 97–102. -/
def hexDig (n : Nat) : Char :=
  let m := n % 16
  Char.ofNat (if m < 10 then 48 + m else 87 + m)

/-- Eight hex digits of a 32-bit word, most significant first. -/
def hex8 (w : Nat) : List Char :=
  [hexDig (w >>> 28), hexDig (w >>> 24), hexDig (w >>> 20), hexDig (w >>> 16),
   hexDig (w >>> 12), hexDig (w >>> 8), hexDig (w >>> 4), hexDig w]

/-- The 64 hex characters of a digest state. -/
def hexOfState (h : Hash8) : List Char :=
  hex8 h.w0 ++ hex8 h.w1 ++ hex8 h.w2 ++ hex8 h.w3 ++
  hex8 h.w4 ++ hex8 h.w5 ++ hex8 h.w6 ++ hex8 h.w7

/-- The `sha256Hex` from `src/utils/hash.ts`: hex digest of the UTF-8 bytes. -/
def sha256Hex (value : String) : String :=
  ⟨hexOfState (sha256State (utf8Bytes value.data))⟩

/-! ## Cache policy (`src/proxy/proxy-cache.ts`) -/

/-- A JS `Record<string, string>` header map. Node lowercases incoming header
names; lookups in the embedded code use the lowercase name. Association-list
representation; the first binding for a name wins. -/
def Headers := List (String × String)

/-- Property read `headers[name]`. -/
def hGet (h : Headers) (name : String) : Option String :=
  List.lookup name h

/-- The `normalizeHeaderValue`: empty for a missing/empty value, otherwise
trimmed and lowercased. -/
def normalizeHeaderValue (value : Option String) : String :=
  match value with
  | none => ""
  | some s => if s = "" then "" else jsLower (jsTrim s)

/-- The `hashCredential`: empty salt for a missing/empty/blank `api_key`,
otherwise the sha256 hex of `method:path:trimmedValue`. -/
def hashCredential (value : Option String) (method path : String) : String :=
  match value with
  | none => ""
  | some v =>
    if v = "" then ""
    else
      let trimmedValue := jsTrim v
      if trimmedValue = "" then ""
      else sha256Hex (method ++ ":" ++ path ++ ":" ++ trimmedValue)

/-- The `buildProxyCacheKey`:
`proxy:{method}:{path}:{accept}|{accept-language}|{credentialHash}`. -/
def buildProxyCacheKey (method path : String) (headers : Option Headers) : String :=
  let accept := normalizeHeaderValue (headers.bind (hGet · "accept"))
  let acceptLanguage := normalizeHeaderValue (headers.bind (hGet · "accept-language"))
  let apiKeyHash := hashCredential (headers.bind (hGet · "api_key")) method path
  let headerFingerprint := accept ++ "|" ++ acceptLanguage ++ "|" ++ apiKeyHash
  "proxy:" ++ method ++ ":" ++ path ++ ":" ++ headerFingerprint

/-- The part of a cache key before the credential segment:
`proxy:{method}:{path}:{accept}|{accept-language}|` — everything of
`buildProxyCacheKey` except the trailing credential hash. -/
def keyPfxStr (method path : String) (h : Headers) : String :=
  ("proxy:" ++ method ++ ":" ++ path ++ ":"
    ++ normalizeHeaderValue (hGet h "accept") ++ "|"
    ++ normalizeHeaderValue (hGet h "accept-language")) ++ "|"

/-- A one-character-repeated api_key (`"a"`, `"aa"`, …), used to range over
infinitely many distinct credentials. -/
def aKey (n : Nat) : String := ⟨List.replicate (n + 1) 'a'⟩

/-- A header map carrying only an `api_key`. -/
def hdr1 (n : Nat) : Headers := [("api_key", aKey n)]

/-- The cache key built for `GET /` with only the `n`-th api_key. -/
def keyN (n : Nat) : String := buildProxyCacheKey "GET" "/" (some (hdr1 n))

/-- Base-`2^32` encoding of a character list (each scalar value is below
`2^32`), used for counting keys. -/
def encCh (l : List Char) : Nat :=
  l.foldr (fun c acc => c.toNat + 4294967296 * acc) 0

/-- A cache-control directive value: `true` for a bare token, or a string. -/
inductive DirVal where
  | tok : DirVal
  | str : String → DirVal
  deriving DecidableEq, Repr

/-- The value-side `.trim().replace(/^"|"$/g, '')` of `parseCacheControl`:
one leading and one trailing double quote are removed. -/
def stripQuotes (s : String) : String :=
  let l := match s.data with
    | '"' :: t => t
    | l => l
  ⟨match l.reverse with
    | '"' :: t => t.reverse
    | _ => l⟩

/-- The `parseCacheControl`: split on commas, trim, drop empties, then for each
part split on `=`; a bare token maps to `true`, a valued token to its
trimmed, quote-stripped value. Later duplicates overwrite earlier ones
(bindings are prepended and `lookup` takes the first). -/
def parseCacheControl (header : Option String) : List (String × DirVal) :=
  match header with
  | none => []
  | some h =>
    if h = "" then []
    else
      (((splitCh ',' h).map jsTrim).filter (fun p => p ≠ "")).foldl
        (fun acc part =>
          let pieces := splitCh '=' part
          let directive := pieces.getD 0 ""
          if directive = "" then acc
          else
            let key := jsLower (jsTrim directive)
            if key = "" then acc
            else
              match pieces with
              | _ :: rawValue :: _ => (key, DirVal.str (stripQuotes (jsTrim rawValue))) :: acc
              | _ => (key, DirVal.tok) :: acc)
        []

/-- JS truthiness of `cacheControl[directive]`: missing and the empty string
are falsy; `true` and any non-empty string are truthy. -/
def truthyDir : Option DirVal → Bool
  | none => false
  | some DirVal.tok => true
  | some (DirVal.str s) => s ≠ ""

/-- One decimal digit value. -/
def decDig (c : Char) : Option Nat :=
  if '0' ≤ c ∧ c ≤ '9' then some (c.toNat - 48) else none

/-- One digit value in an arbitrary base up to 16. -/
def baseDig (base : Nat) (c : Char) : Option Nat :=
  let v :=
    if '0' ≤ c ∧ c ≤ '9' then some (c.toNat - 48)
    else if 'a' ≤ c ∧ c ≤ 'f' then some (c.toNat - 87)
    else if 'A' ≤ c ∧ c ≤ 'F' then some (c.toNat - 55)
    else none
  match v with
  | some d => if d < base then some d else none
  | none => none

/-- All-or-nothing digit-string value in a base; `none` on any bad digit or
on the empty string. -/
def digitsVal (base : Nat) : List Char → Option Nat
  | [] => none
  | l => l.foldl (fun acc c =>
      match acc, baseDig base c with
      | some a, some d => some (a * base + d)
      | _, _ => none) (some 0)

/-- Digit run that may be empty: value and digit count. -/
def decRun : List Char → Option (Nat × Nat)
  | [] => some (0, 0)
  | l => l.foldl (fun acc c =>
      match acc, decDig c with
      | some (a, n), some d => some ((a * 10 + d, n + 1) : Nat × Nat)
      | _, _ => none) (some (0, 0))

/-- Split at the first `e`/`E`. -/
def splitExp : List Char → List Char × Option (List Char)
  | [] => ([], none)
  | c :: t =>
    if c = 'e' ∨ c = 'E' then ([], some t)
    else
      let (m, e) := splitExp t
      (c :: m, e)

/-- Split at the first `.`. -/
def splitDot : List Char → List Char × Option (List Char)
  | [] => ([], none)
  | c :: t =>
    if c = '.' then ([], some t)
    else
      let (m, e) := splitDot t
      (c :: m, e)

/-- Signed decimal literal with optional fraction and exponent, as an exact
rational; `none` when the syntax is invalid. -/
def decLit (l : List Char) : Option Rat :=
  let (sign, body) : Int × List Char :=
    match l with
    | '+' :: r => (1, r)
    | '-' :: r => (-1, r)
    | r => (1, r)
  if body = "Infinity".data then none
  else
    let (mant, expPart) := splitExp body
    let (intPart, fracPart) := splitDot mant
    match decRun intPart, decRun fracPart.toList.flatten with
    | some (iv, iN), some (fv, fN) =>
      if iN + fN = 0 then none
      else
        let num : Int := sign * (iv * 10 ^ fN + fv)
        let den : Nat := 10 ^ fN
        match expPart with
        | none => some (mkRat num den)
        | some e =>
          let (eneg, edigs) : Bool × List Char :=
            match e with
            | '+' :: r => (false, r)
            | '-' :: r => (true, r)
            | r => (false, r)
          match decRun edigs with
          | some (ev, eN) =>
            if eN = 0 then none
            else if eneg then some (mkRat num (den * 10 ^ ev))
            else some (mkRat (num * 10 ^ ev) den)
          | none => none
    | _, _ => none

/-- Binary digit count with structural fuel (`bitlenF n n` takes
`⌈log2 (n+1)⌉ ≤ n` steps, so the fuel never runs out). -/
def bitlenF : Nat → Nat → Nat
  | 0, _ => 0
  | f + 1, n => if n = 0 then 0 else bitlenF f (n / 2) + 1

/-- Number of binary digits of a natural number (`0` for `0`). -/
def bitlen (n : Nat) : Nat := bitlenF n n

/-- Round the fraction `a / b` (with `b > 0`) to the nearest integer,
ties to even. -/
def rne (a b : Nat) : Nat :=
  let q := a / b
  let r := a % b
  if 2 * r < b then q
  else if b < 2 * r then q + 1
  else if q % 2 = 0 then q else q + 1

/-- The integer `m` with `m * 2 ^ e` nearest to `n / d` (ties to even). -/
def rneAt (n d : Nat) (e : Int) : Nat :=
  if 0 ≤ e then rne n (d * 2 ^ e.toNat)
  else rne (n * 2 ^ (-e).toNat) d

/-- Mantissa/exponent pair `(m, e)` of the IEEE-754 binary64 value
`m * 2 ^ e` nearest (ties to even) to the positive rational `n / d`:
the exponent is first chosen so the mantissa has 53 bits (rounding with an
unbounded exponent range, renormalising when rounding carries past
`2 ^ 53`), then exponents below the subnormal floor `2 ^ -1074` are clamped
to it. The caller detects overflow from the returned pair. -/
def dblParts (n d : Nat) : Nat × Int :=
  let e0 : Int := (bitlen n : Int) - (bitlen d : Int) - 53
  let m1 := rneAt n d e0
  let (m2, e2) : Nat × Int :=
    if m1 < 2 ^ 53 then (m1, e0) else (rneAt n d (e0 + 1), e0 + 1)
  let (m3, e3) : Nat × Int :=
    if m2 < 2 ^ 53 then (m2, e2) else (rneAt n d (e2 + 1), e2 + 1)
  if e3 < -1074 then (rneAt n d (-1074), -1074) else (m3, e3)

/-- Round an exact rational to the nearest IEEE-754 binary64 double
(round to nearest, ties to even), returned as an exact rational; `none`
when the rounded magnitude reaches `2 ^ 1024`, i.e. the conversion
overflows to `±Infinity`. Values below half the smallest subnormal
underflow to `0`. -/
def ratToDouble (x : Rat) : Option Rat :=
  if x.num = 0 then some (mkRat 0 1)
  else
    let (m, e) := dblParts x.num.natAbs x.den
    if 0 ≤ e ∧ 2 ^ 1024 ≤ m * 2 ^ e.toNat then none
    else if 0 ≤ e then some (mkRat (x.num.sign * (m * 2 ^ e.toNat : Nat)) 1)
    else some (mkRat (x.num.sign * (m : Nat)) (2 ^ (-e).toNat))

/-- JS `Number(string)` restricted to finite results: `none` stands for `NaN`
or `±Infinity` (the callers only consume it behind `Number.isFinite`).
Whitespace is trimmed, the empty string is `0`, `0x`/`0o`/`0b` literals are
unsigned integers, decimal literals are evaluated exactly over `Rat`, and
the exact mathematical value is then rounded to the nearest IEEE-754
binary64 double (`ratToDouble`), so an overflowing literal such as `1e400`
becomes `Infinity` (`none`) and `0.99999999999999999` becomes the double
`1.0`, exactly as in JS. -/
def jsNumber (s : String) : Option Rat :=
  let t := jsTrimL s.data
  match t with
  | [] => some (mkRat 0 1)
  | '0' :: x :: r =>
    if x = 'x' ∨ x = 'X' then (digitsVal 16 r).bind (fun n => ratToDouble (mkRat n 1))
    else if x = 'o' ∨ x = 'O' then (digitsVal 8 r).bind (fun n => ratToDouble (mkRat n 1))
    else if x = 'b' ∨ x = 'B' then (digitsVal 2 r).bind (fun n => ratToDouble (mkRat n 1))
    else (decLit t).bind ratToDouble
  | _ => (decLit t).bind ratToDouble

/-- The `parseCacheControlNumber`: only string values parse; a finite `Number`
is floored, anything else is `undefined`. -/
def parseCacheControlNumber : Option DirVal → Option Int
  | none => none
  | some DirVal.tok => none
  | some (DirVal.str s) =>
    match jsNumber s with
    | none => none
    | some q => some q.floor

/-- The `resolveTtlSeconds`: `s-maxage` first, then `max-age`. -/
def resolveTtlSeconds (cacheControl : List (String × DirVal)) : Option Int :=
  match parseCacheControlNumber (List.lookup "s-maxage" cacheControl) with
  | some v => some v
  | none => parseCacheControlNumber (List.lookup "max-age" cacheControl)

/-- The policy record returned by `deriveProxyCachePolicy`. -/
structure ProxyCachePolicy where
  cacheable : Bool
  ttlSeconds : Option Int := none
  staleTtlSeconds : Option Int := none
  deriving DecidableEq, Repr

/-- The `HttpClientRawResponse<T>` of `src/http-client/http-client.service.ts`. -/
structure RawResponse (T : Type) where
  status : Int
  body : Option T
  contentType : Option String
  headers : List (String × String)
  deriving DecidableEq, Repr

/-- The `ProxyCacheOptions`; `ignoreUpstreamControl` is truthy-tested. -/
structure ProxyCacheOptions where
  ignoreUpstreamControl : Option Bool
  deriving DecidableEq, Repr

/-- The `deriveProxyCachePolicy` from `src/proxy/proxy-cache.ts`. -/
def deriveProxyCachePolicy {T : Type} (response : RawResponse T)
    (options : Option ProxyCacheOptions) : ProxyCachePolicy :=
  if response.status = 204 ∨ response.status = 304 then ⟨false, none, none⟩
  else if response.status < 200 ∨ response.status ≥ 300 then ⟨false, none, none⟩
  else if (options.bind (·.ignoreUpstreamControl)).getD false then ⟨true, none, none⟩
  else
    let cacheControl := parseCacheControl (List.lookup "cache-control" response.headers)
    if truthyDir (List.lookup "no-store" cacheControl) then ⟨false, none, none⟩
    else if truthyDir (List.lookup "private" cacheControl) then ⟨false, none, none⟩
    else
      match resolveTtlSeconds cacheControl with
      | some ttl => if ttl ≤ 0 then ⟨false, none, none⟩ else ⟨true, some ttl, none⟩
      | none => ⟨true, none, none⟩

/-- The cacheability pipeline as the specification words it, with the single
difference under test: a `no-store`/`private` directive makes the response
uncacheable as soon as it is **present** in the parsed directive map,
regardless of its parsed value. -/
def specDerivePolicy {T : Type} (response : RawResponse T)
    (options : Option ProxyCacheOptions) : ProxyCachePolicy :=
  if response.status = 204 ∨ response.status = 304 then ⟨false, none, none⟩
  else if response.status < 200 ∨ response.status ≥ 300 then ⟨false, none, none⟩
  else if (options.bind (·.ignoreUpstreamControl)).getD false then ⟨true, none, none⟩
  else
    let cacheControl := parseCacheControl (List.lookup "cache-control" response.headers)
    if (List.lookup "no-store" cacheControl).isSome
        ∨ (List.lookup "private" cacheControl).isSome then ⟨false, none, none⟩
    else
      match resolveTtlSeconds cacheControl with
      | some ttl => if ttl ≤ 0 then ⟨false, none, none⟩ else ⟨true, some ttl, none⟩
      | none => ⟨true, none, none⟩

/-! ## Cache service (`src/cache/cache.service.ts`)

`wrapCacheable` is an async method whose effects are the cache-manager read,
an optional cache-manager write, a fire-and-forget background refresh and the
loader call. It is embedded as a pure function of the ambient state it
consumes — store availability, the stored value under the key, the clock, the
loader's (awaited) result, the write outcome — that returns the foreground
result together with the effects it performed. -/

/-- The cache status tags. -/
inductive CacheStatus where
  | HIT | MISS | STALE | BYPASS
  deriving DecidableEq, Repr

/-- The value stored under a cache key: either the tagged envelope
`{value, staleUntil?, __cacheEntry: true}` or a bare legacy value. -/
inductive StoredVal (T : Type) where
  | envl : T → Option Int → StoredVal T
  | raw : T → StoredVal T
  deriving DecidableEq, Repr

/-- A decoded `CacheEntry<T>`. -/
structure CacheEntryM (T : Type) where
  value : T
  staleUntil : Option Int
  deriving DecidableEq, Repr

/-- The `CacheableResult<T>`: a loader result. -/
structure CacheableResult (T : Type) where
  value : T
  cacheable : Option Bool
  ttl : Option Int
  staleTtl : Option Int
  deriving DecidableEq, Repr

/-- The `getEntry`: a bare stored value is wrapped into an envelope without a
stale deadline; a missing value (or a failed read, which the method turns
into `null`) is absent. -/
def getEntry {T : Type} : Option (StoredVal T) → Option (CacheEntryM T)
  | none => none
  | some (StoredVal.envl v s) => some ⟨v, s⟩
  | some (StoredVal.raw v) => some ⟨v, none⟩

/-- The staleness test `entry.staleUntil && Date.now() > entry.staleUntil`:
JS truthiness makes a `staleUntil` of `0` behave as unset. -/
def entryIsStale {T : Type} (e : CacheEntryM T) (now : Int) : Bool :=
  match e.staleUntil with
  | some s => s ≠ 0 && now > s
  | none => false

/-- The `getEntryWithStatus`: the entry plus `HIT`/`STALE`. -/
def getEntryWithStatus {T : Type} (stored : Option (StoredVal T)) (now : Int) :
    Option (CacheEntryM T × CacheStatus) :=
  (getEntry stored).map
    (fun e => (e, if entryIsStale e now then CacheStatus.STALE else CacheStatus.HIT))

/-- The `normalizeTtl`: seconds, or milliseconds for a Redis-backed store. -/
def normalizeTtl (unitMs : Bool) (valueSeconds : Int) : Int :=
  if unitMs then valueSeconds * 1000 else valueSeconds

/-- The `setWithResult` with explicit ttl and staleTtl (as `wrapCacheable` calls
it): the payload handed to `cacheManager.set` with its backing TTL, or `none`
with `false` when the write throws. With a positive stale window the payload
is an envelope with `staleUntil = now + ttl*1000`; otherwise the bare value. -/
def setWithResult {T : Type} (value : T) (ttlSeconds staleTtlSeconds now : Int)
    (unitMs : Bool) (writeOk : Bool) : Option (StoredVal T × Int) × Bool :=
  let ttl := normalizeTtl unitMs ttlSeconds
  let staleTtl := normalizeTtl unitMs staleTtlSeconds
  if writeOk then
    if staleTtl > 0 then
      (some (StoredVal.envl value (some (now + ttlSeconds * 1000)), ttl + staleTtl), true)
    else
      (some (StoredVal.raw value, ttl), true)
  else (none, false)

/-- The outcome of one `wrapCacheable` call: foreground value and status,
the write performed (payload and backing TTL, if any), whether a background
refresh was scheduled, and whether the loader ran in the foreground. -/
structure WrapOut (T : Type) where
  value : T
  status : CacheStatus
  wrote : Option (StoredVal T × Int)
  scheduledRefresh : Bool
  loaderCalled : Bool
  deriving DecidableEq, Repr

/-- The `wrapCacheable`. `avail` is `isCacheAvailable()` (false when the store is
missing or is the fallback store), `stored` the value under the key, `lr` the
loader's result, `optTtl`/`optStale` the `options?.ttl`/`options?.staleTtl`
arguments, and `writeOk` whether the backing write would succeed. -/
def wrapCacheable {T : Type} (avail : Bool) (stored : Option (StoredVal T)) (now : Int)
    (lr : CacheableResult T) (optTtl optStale : Option Int) (defTtl defStale : Int)
    (unitMs : Bool) (writeOk : Bool) : WrapOut T :=
  if !avail then ⟨lr.value, CacheStatus.BYPASS, none, false, true⟩
  else
    match getEntryWithStatus stored now with
    | some (e, st) => ⟨e.value, st, none, st = CacheStatus.STALE, false⟩
    | none =>
      if lr.cacheable = some false then ⟨lr.value, CacheStatus.BYPASS, none, false, true⟩
      else
        let ttl := lr.ttl.getD (optTtl.getD defTtl)
        let staleTtl := lr.staleTtl.getD (optStale.getD defStale)
        let (wrote, stored) := setWithResult lr.value ttl staleTtl now unitMs writeOk
        ⟨lr.value, if stored then CacheStatus.MISS else CacheStatus.BYPASS, wrote, false, true⟩

/-- The loader result `ProxyService.forward` hands to `wrapCacheable` for a
GET: the raw upstream response tagged with the derived policy. -/
def forwardLoaderResult {T : Type} (response : RawResponse T)
    (ignoreUpstreamControl : Bool) : CacheableResult (RawResponse T) :=
  let policy := deriveProxyCachePolicy response (some ⟨some ignoreUpstreamControl⟩)
  ⟨response, some policy.cacheable, policy.ttlSeconds, policy.staleTtlSeconds⟩

/-! ## Rate limiter (`src/api-keys/api-keys.service.ts`) -/

/-- The Redis counter state seen by the rate limiter: counters and the
expiries that were set, both keyed by the counter key. Bindings are
prepended; `lookup` takes the newest. -/
structure RlState where
  counters : List (String × Nat)
  ttls : List (String × Nat)
  deriving DecidableEq, Repr

/-- The `INCR`. -/
def rlIncr (st : RlState) (key : String) : Nat × RlState :=
  let count := (List.lookup key st.counters).getD 0 + 1
  (count, { st with counters := (key, count) :: st.counters })

/-- The `EXPIRE`. -/
def rlExpire (st : RlState) (key : String) (seconds : Nat) : RlState :=
  { st with ttls := (key, seconds) :: st.ttls }

/-- The `rateLimitKey`. -/
def rateLimitKey (redisPfx scope identifier : String) (windowStart : Nat) : String :=
  redisPfx ++ ":ratelimit:" ++ scope ++ ":" ++ identifier ++ ":" ++ toString windowStart

/-- The `ApiKeyRateLimitResult`. -/
structure RlResult where
  allowed : Bool
  limit : Nat
  remaining : Int
  retryAfter : Int
  resetAt : Nat
  deriving DecidableEq, Repr

/-- The `consumeRateLimitForIdentifier`. `nowSeconds` is
`Math.floor(Date.now() / 1000)`; `w`/`maxReq` are the validated
window/maximum configuration. -/
def consumeRateLimitForIdentifier (redisPfx scope identifier : String)
    (w maxReq : Nat) (nowSeconds : Nat) (st : RlState) : RlResult × RlState :=
  let windowStart := nowSeconds / w * w
  let retryAfter : Int := max 1 ((windowStart : Int) + w - nowSeconds)
  let counterKey := rateLimitKey redisPfx scope identifier windowStart
  let (count, st1) := rlIncr st counterKey
  let st2 := if count = 1 then rlExpire st1 counterKey (w + 1) else st1
  (⟨decide (count ≤ maxReq), maxReq, max 0 ((maxReq : Int) - count),
    retryAfter, windowStart + w⟩, st2)

/-! ## API-key lifecycle (`src/api-keys/api-keys.service.ts`) -/

/-- The `ApiKeyRecord`. -/
structure ApiKeyRecordM where
  keyId : String
  hash : String
  owner : String
  label : Option String
  contact : Option String
  createdAt : String
  createdBy : Option String
  revoked : Bool
  revokedAt : Option String
  expiresAt : Option String
  deriving DecidableEq, Repr

/-- The `recordKey`. -/
def recordKey (redisPfx keyId : String) : String := redisPfx ++ ":key:" ++ keyId

/-- The record portion of the key-registry Redis state, as an association
list from full Redis key to the decoded record (the JSON round-trip through
`redis.set`/`redis.get` is the identity on well-formed records). Bindings are
prepended; `lookup` takes the newest. -/
def KeyStore := List (String × ApiKeyRecordM)

/-- The `getRecord`. -/
def getRecord (store : KeyStore) (redisPfx keyId : String) : Option ApiKeyRecordM :=
  List.lookup (recordKey redisPfx keyId) store

/-- The `revokeApiKey`: not-found error on a missing record, no write when the
record is already revoked, otherwise persist the record with `revoked` set
and `revokedAt` stamped. -/
def revokeApiKey (store : KeyStore) (redisPfx keyId : String) (now : String) :
    Except Unit KeyStore :=
  match getRecord store redisPfx keyId with
  | none => Except.error ()
  | some record =>
    if record.revoked then Except.ok store
    else
      Except.ok ((recordKey redisPfx keyId,
        { record with revoked := true, revokedAt := some now }) :: store)

/-! ## Upstream HTTP client retry loop (`src/http-client/http-client.service.ts`)

`requestRaw` performs up to `effectiveRetries + 1` attempts; each attempt
either resolves to a response or rejects with an error value. The attempts'
outcomes are an input (a function from the attempt index), and the embedding
returns how many attempts were consumed along with the final result. -/

/-- The shape of a JS error value as `isRetryableError` inspects it:
whether it is an object at all, a `SyntaxError`, its `name`, and its
`status` when that property holds a number. -/
structure JsErr where
  isObject : Bool
  isSyntaxError : Bool
  name : Option String
  status : Option Int
  deriving DecidableEq, Repr

/-- The `isRetryableError`. -/
def isRetryableError (e : JsErr) : Bool :=
  if !e.isObject then false
  else if e.isSyntaxError then false
  else if e.name = some "AbortError" then false
  else
    match e.status with
    | some status =>
      if 400 ≤ status ∧ status < 500 then false
      else if 500 ≤ status ∧ status < 600 then true
      else false
    | none => true

/-- The `response.ok` of the fetch response: a 2xx status. -/
def respOk (status : Int) : Bool := 200 ≤ status ∧ status < 300

/-- The outcome of one `executeRequest` attempt. -/
inductive AttemptOutcome (T : Type) where
  | success : RawResponse T → AttemptOutcome T
  | failure : JsErr → AttemptOutcome T
  deriving DecidableEq, Repr

/-- HTTP method, as the `'GET' | 'POST'` union. -/
inductive Method where
  | GET | POST
  deriving DecidableEq, Repr

/-- How the `requestRaw` attempt loop was left. -/
inductive LoopExit (T : Type) where
  | ret : RawResponse T → LoopExit T
  | fell : Option JsErr → Option (RawResponse T) → LoopExit T
  deriving DecidableEq, Repr

/-- The `for` loop of `requestRaw`. `left` is `effectiveRetries - attempt`
(the retries still available, so `attempt < effectiveRetries` is
`left > 0`); the result counts the attempts consumed. -/
def rrLoop {T : Type} (outcome : Nat → AttemptOutcome T) :
    Nat → Nat → Option JsErr → Option (RawResponse T) → Nat × LoopExit T
  | left, attempt, lastError, lastResponse =>
    match outcome attempt with
    | AttemptOutcome.success r =>
      if respOk r.status then (1, LoopExit.ret r)
      else
        match left with
        | l + 1 =>
          if 500 ≤ r.status ∧ r.status < 600 then
            let (n, ex) := rrLoop outcome l (attempt + 1) lastError (some r)
            (n + 1, ex)
          else (1, LoopExit.ret r)
        | 0 => (1, LoopExit.ret r)
    | AttemptOutcome.failure e =>
      match left with
      | l + 1 =>
        if isRetryableError e then
          let (n, ex) := rrLoop outcome l (attempt + 1) (some e) lastResponse
          (n + 1, ex)
        else (1, LoopExit.fell (some e) lastResponse)
      | 0 => (1, LoopExit.fell (some e) lastResponse)

/-- The value `requestRaw` settles with: a resolved raw response or a
rejection (`thrown none` is `throw undefined`, kept for the unreachable
final `throw lastError` with no error recorded). -/
inductive ReqResult (T : Type) where
  | returned : RawResponse T → ReqResult T
  | thrown : Option JsErr → ReqResult T
  deriving DecidableEq, Repr

/-- The `requestRaw`: GET-only retries, then the post-loop disposition — rethrow
a non-retryable error, otherwise fall back to the last kept response, else
rethrow. Returns the number of attempts consumed with the result. -/
def requestRaw {T : Type} (outcome : Nat → AttemptOutcome T) (method : Method)
    (retries : Nat) : Nat × ReqResult T :=
  let effectiveRetries := if method = Method.GET then retries else 0
  let (n, ex) := rrLoop outcome effectiveRetries 0 none none
  (n,
    match ex with
    | LoopExit.ret r => ReqResult.returned r
    | LoopExit.fell lastError lastResponse =>
      match lastError with
      | some e =>
        if !isRetryableError e then ReqResult.thrown (some e)
        else
          match lastResponse with
          | some r => ReqResult.returned r
          | none => ReqResult.thrown (some e)
      | none =>
        match lastResponse with
        | some r => ReqResult.returned r
        | none => ReqResult.thrown none)

/-- A transient outcome in the sense of the retry policy: a 5xx response or
a retryable (network-class) error. -/
def transientOutcome {T : Type} : AttemptOutcome T → Bool
  | AttemptOutcome.success r => decide (500 ≤ r.status ∧ r.status < 600)
  | AttemptOutcome.failure e => isRetryableError e

/-! ## Proxy controller header normalization (`src/proxy/proxy.controller.ts`) -/

/-- A raw incoming header value: a string or an array of strings. -/
inductive HVal where
  | str : String → HVal
  | arr : List String → HVal
  deriving DecidableEq, Repr

/-- The fixed blocked-header list (hop-by-hop plus proxy-overridden plus
forwarding metadata). -/
def baseBlocked : List String :=
  ["connection", "keep-alive", "proxy-authenticate", "proxy-authorization",
   "te", "trailer", "transfer-encoding", "upgrade", "host", "content-length",
   "x-forwarded-for", "x-forwarded-host", "x-forwarded-proto",
   "x-forwarded-port", "x-real-ip"]

/-- The forwarded-header allowlist. -/
def allowlistedHeaders : List String :=
  ["accept", "accept-encoding", "accept-language", "api_key", "authorization",
   "content-type", "user-agent"]

/-- The `isAllowedHeader`: any `x-` header, or an allowlisted one. -/
def isAllowedHeader (header : String) : Bool :=
  strLeads "x-" header || allowlistedHeaders.contains header

/-- The extra hop-by-hop tokens named by the request's `connection` header:
split on commas, trimmed, lowercased, empties dropped. -/
def connectionTokens (headers : List (String × HVal)) : List String :=
  let raw : List String :=
    match List.lookup "connection" headers with
    | none => []
    | some (HVal.str s) => splitCh ',' s
    | some (HVal.arr l) => l.flatMap (splitCh ',')
  (raw.map (fun v => jsLower (jsTrim v))).filter (fun v => v ≠ "")

/-- JS `Array.prototype.join(', ')`. -/
def joinComma : List String → String
  | [] => ""
  | [s] => s
  | s :: t => s ++ ", " ++ joinComma t

/-- The `normalizeHeaders` of the proxy controller: drop blocked and
connection-named headers, keep only allowed ones, lowercase names, join
array values. Bindings are prepended; `lookup` takes the newest. -/
def normalizeHeaders (headers : List (String × HVal)) : Headers :=
  let blocked := baseBlocked ++ connectionTokens headers
  headers.foldl
    (fun acc kv =>
      let normalizedKey := jsLower kv.1
      if blocked.contains normalizedKey then acc
      else if !isAllowedHeader normalizedKey then acc
      else
        match kv.2 with
        | HVal.str s => (normalizedKey, s) :: acc
        | HVal.arr l => if l.length > 0 then (normalizedKey, joinComma l) :: acc else acc)
    []

/-! ## Admin cache invalidation (`src/cache/cache-admin.service.ts`)

The Redis glob matcher below models the server-side semantics of
`SCAN ... MATCH`: `*`, `?` and backslash escapes. Character classes are
modelled conservatively as never matching — the service escapes `[` (along
with `\ * ? ]`) in every user-supplied fragment before composing a pattern,
so no pattern it issues ever contains an unescaped `[`. The Redis store
itself is a list of keys; one `scan` pass returns every key matching the
pattern, and `del` removes the named keys and reports how many existed. -/

/-- Redis glob matching with explicit fuel (one unit per pattern step);
`globMatch` supplies enough fuel for full evaluation. -/
def globF : Nat → List Char → List Char → Bool
  | 0, _, _ => false
  | _ + 1, [], [] => true
  | _ + 1, [], _ :: _ => false
  | f + 1, c :: p, [] => if c = '*' then globF f p [] else false
  | f + 1, c :: p, x :: s =>
    if c = '*' then globF f p (x :: s) || globF f (c :: p) s
    else if c = '?' then globF f p s
    else if c = '[' then false
    else if c = '\\' then
      match p with
      | c2 :: p' => x == c2 && globF f p' s
      | [] => x == '\\' && globF f p s
    else x == c && globF f p s

/-- Redis glob matching of a key against a pattern. -/
def globMatch (pattern key : String) : Bool :=
  globF (pattern.data.length + key.data.length + 1) pattern.data key.data

/-- A glob character with no special meaning. -/
def nonMeta (c : Char) : Bool :=
  !(c == '*' || c == '?' || c == '[' || c == '\\')

/-- The `proxy:GET:` cache-key namespace of the invalidator. -/
def proxyGetNs : String := "proxy:GET:"

/-- The `escapeRedisGlob`: backslash-escape `\ * ? [ ]`. -/
def escapeRedisGlob (value : String) : String :=
  ⟨value.data.flatMap (fun c =>
    if ['\\', '*', '?', '[', ']'].contains c then ['\\', c] else [c])⟩

/-- Collapse every run of two or more slashes to one (`replace(/\/{2,}/g, '/')`);
the flag records whether the previous character was a slash. -/
def collapseGo : Bool → List Char → List Char
  | _, [] => []
  | prev, c :: t =>
    if c = '/' then
      if prev then collapseGo true t else '/' :: collapseGo true t
    else c :: collapseGo false t

/-- Strip trailing slashes (`replace(/\/+$/g, '')`). -/
def dropTrailingSlashes (l : List Char) : List Char :=
  (l.reverse.dropWhile (fun c => c == '/')).reverse

/-- The `normalizePathPart`: reject absolute URLs, force a leading slash,
collapse duplicated slashes, strip trailing slashes, default to `/`. -/
def normalizePathPart (value : String) : Except String String :=
  if strHas value "://" then Except.error "path must not be an absolute URL"
  else
    let withLeadingSlash := if strLeads "/" value then value else "/" ++ value
    let collapsed : String := ⟨collapseGo false withLeadingSlash.data⟩
    let normalized : String := ⟨dropTrailingSlashes collapsed.data⟩
    Except.ok (if normalized = "" then "/" else normalized)

/-- The `normalizePathWithOptionalQuery`: normalize the path part, keep a
non-blank query verbatim. -/
def normalizePathWithOptionalQuery (value : String) : Except String String :=
  let trimmed := jsTrim value
  match trimmed.data.findIdx? (fun c => c == '?') with
  | none => normalizePathPart trimmed
  | some queryIndex =>
    let rawPathPart : String := ⟨trimmed.data.take queryIndex⟩
    let rawQuery : String := ⟨trimmed.data.drop (queryIndex + 1)⟩
    (normalizePathPart rawPathPart).map (fun normalizedPath =>
      if jsTrim rawQuery = "" then normalizedPath
      else normalizedPath ++ "?" ++ rawQuery)

/-- The `normalizePathPrefix`: no query allowed, then like a path part. -/
def normalizePathPfx (value : String) : Except String String :=
  let trimmed := jsTrim value
  if strHas trimmed "?" then Except.error "pathPrefix must not contain query parameters"
  else normalizePathPart trimmed

/-- The admin-side `normalizeHeaderValue`/`normalizeApiKey`: trim, blank
becomes absent. -/
def adminNormHdr (value : Option String) : Option String :=
  value.bind (fun s => let t := jsTrim s; if t = "" then none else some t)

/-- The `headers` body of a strict exact invalidation. -/
structure StrictHdrs where
  accept : Option String
  acceptLanguage : Option String
  apiKey : Option String
  deriving DecidableEq, Repr

/-- The `InvalidateProxyCacheInput` (the `strict` and `dryRun` flags already
truthiness-coerced). -/
inductive InvInput where
  | exact : String → Bool → Option StrictHdrs → Bool → InvInput
  | pfxScope : String → Bool → InvInput
  | allScope : Bool → InvInput
  deriving DecidableEq, Repr

/-- The `dryRun` flag of an input. -/
def InvInput.dryRun : InvInput → Bool
  | InvInput.exact _ _ _ d => d
  | InvInput.pfxScope _ d => d
  | InvInput.allScope d => d

/-- The `InvalidateProxyCacheResult`. -/
structure InvResult where
  scope : String
  dryRun : Bool
  matched : Nat
  deleted : Nat
  deriving DecidableEq, Repr

/-- A Redis command issued by the invalidator. -/
inductive RedisOp where
  | scanOp : String → RedisOp
  | delOp : List String → RedisOp
  | existsOp : String → RedisOp
  deriving DecidableEq, Repr

/-- The namespace discipline of a single Redis command: a scan pattern both
begins with `proxy:GET:` and only matches keys beginning with `proxy:GET:`;
deleted and probed keys begin with `proxy:GET:`. -/
def opInNs : RedisOp → Prop
  | RedisOp.scanOp pat => strLeads proxyGetNs pat = true
      ∧ ∀ k, globMatch pat k = true → strLeads proxyGetNs k = true
  | RedisOp.delOp ks => ∀ k ∈ ks, strLeads proxyGetNs k = true
  | RedisOp.existsOp k => strLeads proxyGetNs k = true

/-- Split into chunks of `n` (fuel-driven; `chunkList` supplies the length). -/
def chunkF {α : Type} (n : Nat) : Nat → List α → List (List α)
  | 0, _ => []
  | _ + 1, [] => []
  | f + 1, a :: t => (a :: t).take n :: chunkF n f ((a :: t).drop n)

/-- The `deleteInBatches` batching: slices of at most `n` keys. -/
def chunkList {α : Type} (n : Nat) (l : List α) : List (List α) :=
  chunkF n l.length l

/-- One pattern-scoped invalidation pass (`scanAndInvalidateByPattern`):
a cursor scan of the whole store, then batched deletes unless dry-running. -/
def runScanInvalidate (store : List String) (scope pattern : String) (dryRun : Bool) :
    InvResult × List String × List RedisOp :=
  let matchedKeys := store.filter (fun k => globMatch pattern k)
  let delOps := if dryRun then [] else (chunkList 100 matchedKeys).map RedisOp.delOp
  let deleted := if dryRun then 0 else matchedKeys.length
  let store' := if dryRun then store else store.filter (fun k => !globMatch pattern k)
  (⟨scope, dryRun, matchedKeys.length, deleted⟩, store', RedisOp.scanOp pattern :: delOps)

/-- The `invalidateStrictKey`: existence probe on a dry run, single-key delete
otherwise. -/
def runStrictInvalidate (store : List String) (key : String) (dryRun : Bool) :
    InvResult × List String × List RedisOp :=
  if dryRun then
    (⟨"exact", true, if store.contains key then 1 else 0, 0⟩, store,
     [RedisOp.existsOp key])
  else
    let deleted := (store.filter (fun k => k == key)).length
    (⟨"exact", false, if deleted > 0 then 1 else 0, deleted⟩,
     store.filter (fun k => k != key), [RedisOp.delOp [key]])

/-- The header object a strict exact invalidation assembles from the
normalized `accept`, `acceptLanguage` and `apiKey` body fields (each added
only when present). -/
def strictHdrsOf (headers : Option StrictHdrs) : Headers :=
  (match adminNormHdr (headers.bind (·.accept)) with
    | some a => [("accept", a)]
    | none => []) ++
  (match adminNormHdr (headers.bind (·.acceptLanguage)) with
    | some a => [("accept-language", a)]
    | none => []) ++
  (match adminNormHdr (headers.bind (·.apiKey)) with
    | some a => [("api_key", a)]
    | none => [])

/-- The `CacheAdminService.invalidate`: translate the input into a pattern scan
or a strict single-key operation over the store, or a `BadRequestException`. -/
def invalidate (input : InvInput) (store : List String) :
    Except String (InvResult × List String × List RedisOp) :=
  match input with
  | InvInput.allScope dryRun =>
    Except.ok (runScanInvalidate store "all" (proxyGetNs ++ "*") dryRun)
  | InvInput.pfxScope pathPfx dryRun =>
    (normalizePathPfx pathPfx).map (fun normalizedPfx =>
      runScanInvalidate store "prefix"
        (proxyGetNs ++ escapeRedisGlob normalizedPfx ++ "*") dryRun)
  | InvInput.exact path strict headers dryRun =>
    (normalizePathWithOptionalQuery path).map (fun normalizedPath =>
      if strict then
        runStrictInvalidate store
          (buildProxyCacheKey "GET" normalizedPath (some (strictHdrsOf headers))) dryRun
      else
        runScanInvalidate store "exact"
          (proxyGetNs ++ escapeRedisGlob normalizedPath ++ ":*") dryRun)

/-! ## Theorems -/

/-- Every branch of `deriveProxyCachePolicy` leaves `staleTtlSeconds` absent. -/
theorem derive_staleTtl_none {T : Type} (r : RawResponse T)
    (o : Option ProxyCacheOptions) :
    (deriveProxyCachePolicy r o).staleTtlSeconds = none := by
  unfold deriveProxyCachePolicy
  dsimp only
  repeat' split
  all_goals rfl

/-- C9: `deriveProxyCachePolicy` never returns a `staleTtlSeconds` (the field
is absent in every branch); hence the loader result `ProxyService.forward`
hands to `wrapCacheable` carries no stale TTL, and — since `forward` passes
no options either — the stale window `wrapCacheable` resolves for the write
(`result.staleTtl ?? options?.staleTtl ?? this.defaultStaleTtlSeconds`) is
the configured default (`CACHE_STALE_TTL`). -/
theorem c9_no_upstream_stale_ttl {T : Type} (r : RawResponse T)
    (o : Option ProxyCacheOptions) (ig : Bool) (defStale : Int) :
    (deriveProxyCachePolicy r o).staleTtlSeconds = none
    ∧ (forwardLoaderResult r ig).staleTtl = none
    ∧ (forwardLoaderResult r ig).staleTtl.getD ((none : Option Int).getD defStale)
        = defStale := by
  refine ⟨derive_staleTtl_none r o, ?_, ?_⟩ <;>
    simp [forwardLoaderResult, derive_staleTtl_none]

/-- C6: `consumeRateLimitForIdentifier` computes
`windowStart = ⌊now_s / windowSeconds⌋ * windowSeconds` (`Nat` division is
the floor), increments the `(scope, identifier, windowStart)` counter, sets
an expiry of `windowSeconds + 1` exactly when the incremented count is `1`,
and returns `allowed = (count ≤ maxRequests)`,
`remaining = max 0 (maxRequests - count)`,
`retryAfter = max 1 (windowStart + windowSeconds - now_s)` and
`resetAt = windowStart + windowSeconds`. -/
theorem c6_rate_limit_window (redisPfx scope identifier : String)
    (w maxReq nowSeconds : Nat) (st : RlState) :
    (consumeRateLimitForIdentifier redisPfx scope identifier w maxReq nowSeconds st
        |> fun out =>
      let windowStart := nowSeconds / w * w
      let counterKey := rateLimitKey redisPfx scope identifier windowStart
      let count := (List.lookup counterKey st.counters).getD 0 + 1
      List.lookup counterKey out.2.counters = some count
      ∧ List.lookup counterKey out.2.ttls =
          (if count = 1 then some (w + 1) else List.lookup counterKey st.ttls)
      ∧ out.1.allowed = decide (count ≤ maxReq)
      ∧ out.1.limit = maxReq
      ∧ out.1.remaining = max 0 ((maxReq : Int) - count)
      ∧ out.1.retryAfter = max 1 ((windowStart : Int) + w - nowSeconds)
      ∧ out.1.resetAt = windowStart + w) := by
  simp only [consumeRateLimitForIdentifier, rlIncr, rlExpire]
  refine ⟨?_, ?_, by simp, by simp, by simp, by simp, by simp⟩ <;>
    split <;> simp_all [List.lookup]

/-- C10: `revokeApiKey` is idempotent. When the stored record is already
revoked it returns without writing, leaving the store — including the
original `revokedAt` — unchanged; and whenever a revoke succeeds, revoking
again leaves the state of the first revoke intact. -/
theorem c10_revoke_idempotent (store : KeyStore) (redisPfx keyId now now₂ : String) :
    (∀ rec, getRecord store redisPfx keyId = some rec → rec.revoked = true →
        revokeApiKey store redisPfx keyId now = Except.ok store)
    ∧ (∀ s', revokeApiKey store redisPfx keyId now = Except.ok s' →
        revokeApiKey s' redisPfx keyId now₂ = Except.ok s') := by
  constructor
  · intro rec hrec hrev
    unfold revokeApiKey
    rw [hrec]
    simp [hrev]
  · intro s' h
    unfold revokeApiKey at h ⊢
    cases hrec : getRecord store redisPfx keyId with
    | none => rw [hrec] at h; cases h
    | some rec =>
      rw [hrec] at h
      by_cases hrev : rec.revoked
      · simp [hrev] at h
        subst h
        rw [hrec]
        simp [hrev]
      · simp [hrev] at h
        subst h
        have : getRecord ((recordKey redisPfx keyId,
            { rec with revoked := true, revokedAt := some now }) :: store)
            redisPfx keyId =
            some { rec with revoked := true, revokedAt := some now } := by
          simp [getRecord, List.lookup]
        rw [this]
        simp

/-- Witness for C10 at a concrete store: a record revoked at `"t0"` is left
untouched by a new revoke, and a successful revoke is stable under a second
revoke. -/
theorem c10_witness :
    (revokeApiKey [(recordKey "api-keys" "k1",
        ⟨"k1", "h", "owner", none, none, "2024-01-01", none, true, some "t0", none⟩)]
        "api-keys" "k1" "t1"
      = Except.ok [(recordKey "api-keys" "k1",
        ⟨"k1", "h", "owner", none, none, "2024-01-01", none, true, some "t0", none⟩)]) := by
  exact (c10_revoke_idempotent _ "api-keys" "k1" "t1" "t2").1
    ⟨"k1", "h", "owner", none, none, "2024-01-01", none, true, some "t0", none⟩
    (by decide) rfl

/-- C3 (the code): `normalizeHeaders` of the proxy controller does NOT strip
`x-api-key` — the `isAllowedHeader` rule admits every `x-` header and the
blocked set does not name `x-api-key`, so a client-supplied `x-api-key`
survives normalization and is forwarded upstream. The repository's own e2e
test (`test/proxy.e2e-spec.ts`, "does not forward client x-api-key header to
upstream") and its openspec requirement ("The backend platform SHALL never
forward `x-api-key` to the upstream API") demand the opposite. -/
theorem c3_x_api_key_survives :
    List.lookup "x-api-key"
      (normalizeHeaders
        [("x-api-key", HVal.str "secret-key-123"), ("accept", HVal.str "*/*")])
      = some "secret-key-123" := by decide

/-- C1 counterexample: a present entry whose `staleUntil` is `0` — an epoch
deadline that has passed at `now = 1000` — is served as `HIT` with no refresh
scheduled, because `entry.staleUntil && …` treats the number `0` as unset;
the claim as stated demands `STALE` for every entry whose `staleUntil` has
passed. -/
theorem c1_counterexample :
    (wrapCacheable (T := Nat) true (some (StoredVal.envl 7 (some 0))) 1000
        ⟨7, some true, none, none⟩ none none 300 60 false true).status = CacheStatus.HIT
    ∧ (wrapCacheable (T := Nat) true (some (StoredVal.envl 7 (some 0))) 1000
        ⟨7, some true, none, none⟩ none none 300 60 false true).scheduledRefresh = false
    ∧ ((0 : Int) < 1000) := by decide

/-- C1 (amended): `wrapCacheable` returns `BYPASS` without writing when the
cache is unavailable (fallback/missing store) or when the loader result is
`cacheable == false`; serves a present entry as `HIT` when its `staleUntil`
is unset, **zero**, or not yet passed; serves it as `STALE` and schedules a
background refresh when `staleUntil` is set, nonzero and passed; and
otherwise calls the loader, writes with the resolved ttl/staleTtl and
returns `MISS`, downgrading to `BYPASS` when the write fails. -/
theorem c1_wrap_cacheable (T : Type) (avail : Bool) (stored : Option (StoredVal T))
    (now : Int) (lr : CacheableResult T) (optTtl optStale : Option Int)
    (defTtl defStale : Int) (unitMs : Bool) (writeOk : Bool) :
    (wrapCacheable avail stored now lr optTtl optStale defTtl defStale unitMs writeOk
        |> fun out =>
      (avail = false → out = ⟨lr.value, CacheStatus.BYPASS, none, false, true⟩)
      ∧ (∀ e, avail = true → getEntry stored = some e →
          (e.staleUntil = none ∨ e.staleUntil = some 0 ∨
            (∃ s, e.staleUntil = some s ∧ ¬ now > s)) →
          out = ⟨e.value, CacheStatus.HIT, none, false, false⟩)
      ∧ (∀ e s, avail = true → getEntry stored = some e →
          e.staleUntil = some s → s ≠ 0 → now > s →
          out = ⟨e.value, CacheStatus.STALE, none, true, false⟩)
      ∧ (avail = true → getEntry stored = none → lr.cacheable = some false →
          out = ⟨lr.value, CacheStatus.BYPASS, none, false, true⟩)
      ∧ (avail = true → getEntry stored = none → lr.cacheable ≠ some false →
          writeOk = true →
          out = ⟨lr.value, CacheStatus.MISS,
            (setWithResult lr.value (lr.ttl.getD (optTtl.getD defTtl))
              (lr.staleTtl.getD (optStale.getD defStale)) now unitMs true).1,
            false, true⟩)
      ∧ (avail = true → getEntry stored = none → lr.cacheable ≠ some false →
          writeOk = false →
          out = ⟨lr.value, CacheStatus.BYPASS, none, false, true⟩)) := by
  refine ⟨?_, ?_, ?_, ?_, ?_, ?_⟩
  · intro ha; simp [wrapCacheable, ha]
  · intro e ha he hfresh
    have hstale : entryIsStale e now = false := by
      rcases hfresh with h0 | h0 | ⟨s, hs, hns⟩
      · simp [entryIsStale, h0]
      · simp [entryIsStale, h0]
      · simp [entryIsStale, hs, hns]
    simp [wrapCacheable, ha, getEntryWithStatus, he, hstale]
  · intro e s ha he hs hnz hgt
    have hstale : entryIsStale e now = true := by
      simp [entryIsStale, hs, hnz, hgt]
    simp [wrapCacheable, ha, getEntryWithStatus, he, hstale]
  · intro ha he hc
    simp [wrapCacheable, ha, getEntryWithStatus, he, hc]
  · intro ha he hc hw
    simp [wrapCacheable, ha, getEntryWithStatus, he, hc, hw, setWithResult]
    split <;> simp
  · intro ha he hc hw
    simp [wrapCacheable, ha, getEntryWithStatus, he, hc, hw, setWithResult]

/-- Witness for C1 at concrete inputs: a fresh entry is a `HIT`; an absent
entry with a cacheable loader result and a healthy store is a `MISS` that
writes; a failed write downgrades to `BYPASS`. -/
theorem c1_witness :
    wrapCacheable (T := Nat) true (some (StoredVal.envl 7 (some 99))) 50
        ⟨8, some true, none, none⟩ none none 300 60 false true
      = ⟨7, CacheStatus.HIT, none, false, false⟩
    ∧ wrapCacheable (T := Nat) true none 50
        ⟨8, some true, some 120, none⟩ none none 300 60 false true
      = ⟨8, CacheStatus.MISS,
          some (StoredVal.envl 8 (some (50 + 120 * 1000)), 120 + 60), false, true⟩
    ∧ wrapCacheable (T := Nat) true none 50
        ⟨8, some true, some 120, none⟩ none none 300 60 false false
      = ⟨8, CacheStatus.BYPASS, none, false, true⟩ := by
  refine ⟨?_, ?_, ?_⟩
  · have h := (c1_wrap_cacheable Nat true (some (StoredVal.envl 7 (some 99))) 50
      ⟨8, some true, none, none⟩ none none 300 60 false true).2.1
    exact h ⟨7, some 99⟩ rfl rfl (Or.inr (Or.inr ⟨99, rfl, by decide⟩))
  · have h := (c1_wrap_cacheable Nat true none 50
      ⟨8, some true, some 120, none⟩ none none 300 60 false true).2.2.2.2.1
    rw [h rfl rfl (by decide) rfl]
    decide
  · have h := (c1_wrap_cacheable Nat true none 50
      ⟨8, some true, some 120, none⟩ none none 300 60 false false).2.2.2.2.2
    exact h rfl rfl (by decide) rfl

/-- C4 counterexample: for a 200 response with `cache-control: private=`,
the directive map contains `private` (with the empty value ``""``), so the
claim's "presence of no-store or private yields cacheable == false" demands
an uncacheable result — but `deriveProxyCachePolicy` tests the directive's
JS truthiness, finds the empty string falsy, and returns cacheable. -/
theorem c4_counterexample :
    deriveProxyCachePolicy (T := Nat) ⟨200, none, none, [("cache-control", "private=")]⟩
        none = ⟨true, none, none⟩
    ∧ List.lookup "private"
        (parseCacheControl (some "private=")) = some (DirVal.str "")
    ∧ specDerivePolicy (T := Nat) ⟨200, none, none, [("cache-control", "private=")]⟩
        none = ⟨false, none, none⟩ := by decide

/-- C4 (amended): `deriveProxyCachePolicy` applies the rules in order —
204/304 and non-2xx are uncacheable; `ignoreUpstreamControl` short-circuits
to cacheable with no TTL; a `no-store` or `private` directive that is
**truthy** (a bare token or a non-empty value; an empty parsed value is
ignored) is uncacheable; the TTL is resolved from `s-maxage` then `max-age`
(first directive that parses to a finite number, floored), a TTL ≤ 0 is
uncacheable, a positive TTL is returned, and no TTL-yielding directive
leaves a cacheable result with the TTL unset. -/
theorem c4_policy_rules {T : Type} (r : RawResponse T) (o : Option ProxyCacheOptions) :
    (let ig := (o.bind (·.ignoreUpstreamControl)).getD false
     let cc := parseCacheControl (List.lookup "cache-control" r.headers)
     let statusBad := r.status = 204 ∨ r.status = 304 ∨ r.status < 200 ∨ r.status ≥ 300
     (statusBad → deriveProxyCachePolicy r o = ⟨false, none, none⟩)
     ∧ (¬ statusBad → ig = true → deriveProxyCachePolicy r o = ⟨true, none, none⟩)
     ∧ (¬ statusBad → ig = false →
         (truthyDir (List.lookup "no-store" cc) = true
           ∨ truthyDir (List.lookup "private" cc) = true) →
         deriveProxyCachePolicy r o = ⟨false, none, none⟩)
     ∧ (¬ statusBad → ig = false →
         truthyDir (List.lookup "no-store" cc) = false →
         truthyDir (List.lookup "private" cc) = false →
         (∀ t, resolveTtlSeconds cc = some t → t ≤ 0 →
             deriveProxyCachePolicy r o = ⟨false, none, none⟩)
         ∧ (∀ t, resolveTtlSeconds cc = some t → 0 < t →
             deriveProxyCachePolicy r o = ⟨true, some t, none⟩)
         ∧ (resolveTtlSeconds cc = none →
             deriveProxyCachePolicy r o = ⟨true, none, none⟩))) := by
  refine ⟨?_, ?_, ?_, ?_⟩
  · intro hbad
    unfold deriveProxyCachePolicy
    by_cases h1 : r.status = 204 ∨ r.status = 304
    · rw [if_pos h1]
    · rw [if_neg h1]
      have h2 : r.status < 200 ∨ r.status ≥ 300 := by
        rcases hbad with h | h | h | h
        · exact absurd (Or.inl h) h1
        · exact absurd (Or.inr h) h1
        · exact Or.inl h
        · exact Or.inr h
      rw [if_pos h2]
  · intro hok hig
    unfold deriveProxyCachePolicy
    rw [if_neg (by tauto), if_neg (by tauto), if_pos hig]
  · intro hok hig hdir
    unfold deriveProxyCachePolicy
    rw [if_neg (by tauto), if_neg (by tauto), if_neg (by simp [hig])]
    dsimp only
    by_cases hns : truthyDir (List.lookup "no-store"
        (parseCacheControl (List.lookup "cache-control" r.headers))) = true
    · rw [if_pos hns]
    · rcases hdir with h | h
      · exact absurd h hns
      · rw [if_neg hns, if_pos h]
  · intro hok hig hns hpriv
    refine ⟨?_, ?_, ?_⟩
    · intro t ht htle
      unfold deriveProxyCachePolicy
      rw [if_neg (by tauto), if_neg (by tauto), if_neg (by simp [hig])]
      dsimp only
      rw [if_neg (by simp [hns]), if_neg (by simp [hpriv]), ht]
      simp [htle]
    · intro t ht htpos
      unfold deriveProxyCachePolicy
      rw [if_neg (by tauto), if_neg (by tauto), if_neg (by simp [hig])]
      dsimp only
      rw [if_neg (by simp [hns]), if_neg (by simp [hpriv]), ht]
      simp
      omega
    · intro ht
      unfold deriveProxyCachePolicy
      rw [if_neg (by tauto), if_neg (by tauto), if_neg (by simp [hig])]
      dsimp only
      rw [if_neg (by simp [hns]), if_neg (by simp [hpriv]), ht]

/-- Witness for C4 at concrete responses: a 200 with `max-age=60` caches for
60 seconds; a 200 with `no-store` does not cache; a 204 does not cache. -/
theorem c4_witness :
    deriveProxyCachePolicy (T := Nat) ⟨200, none, none, [("cache-control", "max-age=60")]⟩
        none = ⟨true, some 60, none⟩
    ∧ deriveProxyCachePolicy (T := Nat) ⟨200, none, none, [("cache-control", "no-store")]⟩
        none = ⟨false, none, none⟩
    ∧ deriveProxyCachePolicy (T := Nat) ⟨204, none, none, []⟩ none
        = ⟨false, none, none⟩ := by
  refine ⟨?_, ?_, ?_⟩
  · exact ((c4_policy_rules ⟨200, none, none, [("cache-control", "max-age=60")]⟩
      none).2.2.2 (by decide) (by decide) (by decide) (by decide)).2.1 60 (by decide)
      (by decide)
  · exact (c4_policy_rules ⟨200, none, none, [("cache-control", "no-store")]⟩
      none).2.2.1 (by decide) (by decide) (Or.inl (by decide))
  · exact (c4_policy_rules (T := Nat) ⟨204, none, none, []⟩ none).1 (Or.inl rfl)

/-- The retry loop consumes at most `left + 1` attempts. -/
theorem rrLoop_count_le {T : Type} (outcome : Nat → AttemptOutcome T) :
    ∀ left attempt le lrs, (rrLoop outcome left attempt le lrs).1 ≤ left + 1 := by
  intro left
  induction left with
  | zero =>
    intro attempt le lrs
    unfold rrLoop
    cases outcome attempt with
    | success r => dsimp only; split <;> simp
    | failure e => simp
  | succ l ih =>
    intro attempt le lrs
    unfold rrLoop
    cases outcome attempt with
    | success r =>
      dsimp only
      split
      · simp
      · split
        · have := ih (attempt + 1) le (some r)
          omega
        · simp
    | failure e =>
      dsimp only
      split
      · have := ih (attempt + 1) (some e) lrs
        omega
      · simp

/-- Every attempt of the loop that is followed by another attempt had a
transient outcome. -/
theorem rrLoop_retry_transient {T : Type} (outcome : Nat → AttemptOutcome T) :
    ∀ left attempt le lrs k, k + 1 < (rrLoop outcome left attempt le lrs).1 →
      transientOutcome (outcome (attempt + k)) = true := by
  intro left
  induction left with
  | zero =>
    intro attempt le lrs k hk
    exfalso
    unfold rrLoop at hk
    cases houtcome : outcome attempt with
    | success r =>
      rw [houtcome] at hk
      dsimp only at hk
      split at hk <;> omega
    | failure e => rw [houtcome] at hk; simp at hk
  | succ l ih =>
    intro attempt le lrs k hk
    unfold rrLoop at hk
    cases houtcome : outcome attempt with
    | success r =>
      rw [houtcome] at hk
      dsimp only at hk
      split at hk
      · omega
      · split at hk
        · rename_i hok h5xx
          cases k with
          | zero => simpa [transientOutcome, houtcome] using h5xx
          | succ k' =>
            have := ih (attempt + 1) le (some r) k' (by omega)
            simpa [Nat.add_assoc, Nat.add_comm 1 k'] using this
        · omega
    | failure e =>
      rw [houtcome] at hk
      dsimp only at hk
      split at hk
      · rename_i hretry
        cases k with
        | zero => simpa [transientOutcome, houtcome] using hretry
        | succ k' =>
          have := ih (attempt + 1) (some e) lrs k' (by omega)
          simpa [Nat.add_assoc, Nat.add_comm 1 k'] using this
      · omega

/-- With every outcome transient, the loop consumes exactly `left + 1`
attempts. -/
theorem rrLoop_all_transient {T : Type} (outcome : Nat → AttemptOutcome T)
    (htr : ∀ k, transientOutcome (outcome k) = true) :
    ∀ left attempt le lrs, (rrLoop outcome left attempt le lrs).1 = left + 1 := by
  intro left
  induction left with
  | zero =>
    intro attempt le lrs
    unfold rrLoop
    cases houtcome : outcome attempt with
    | success r =>
      have h5 := htr attempt
      rw [houtcome] at h5
      simp [transientOutcome] at h5
      have hok : respOk r.status = false := by
        simp [respOk]
        omega
      dsimp only
      rw [if_neg (by simp [hok])]
    | failure e => simp
  | succ l ih =>
    intro attempt le lrs
    unfold rrLoop
    cases houtcome : outcome attempt with
    | success r =>
      have h5 := htr attempt
      rw [houtcome] at h5
      simp [transientOutcome] at h5
      have hok : respOk r.status = false := by
        simp [respOk]
        omega
      dsimp only
      rw [if_neg (by simp [hok]), if_pos h5]
      dsimp only
      rw [ih (attempt + 1) le (some r)]
    | failure e =>
      have hr := htr attempt
      rw [houtcome] at hr
      simp [transientOutcome] at hr
      dsimp only
      rw [if_pos hr]
      dsimp only
      rw [ih (attempt + 1) (some e) lrs]

/-- C8: `requestRaw` performs at most `retries + 1` attempts (`retries` is
GET-only: a POST gets exactly one attempt), a retry only ever follows a
transient outcome (a 5xx response or a retryable network-class error — never
a 2xx/4xx/other response, never a `SyntaxError` parse error, never an
`AbortError` cancellation, never an error carrying a non-5xx status), and a
GET whose every attempt is transient consumes exactly `retries + 1`
attempts. -/
theorem c8_retry_policy {T : Type} (outcome : Nat → AttemptOutcome T)
    (method : Method) (retries : Nat) :
    ((requestRaw outcome method retries).1
        ≤ (if method = Method.GET then retries else 0) + 1)
    ∧ (method = Method.POST → (requestRaw outcome method retries).1 = 1)
    ∧ (∀ k, k + 1 < (requestRaw outcome method retries).1 →
        transientOutcome (outcome k) = true)
    ∧ (method = Method.GET → (∀ k, transientOutcome (outcome k) = true) →
        (requestRaw outcome method retries).1 = retries + 1) := by
  refine ⟨?_, ?_, ?_, ?_⟩
  · simpa [requestRaw] using
      rrLoop_count_le outcome (if method = Method.GET then retries else 0) 0 none none
  · intro hpost
    have : (if method = Method.GET then retries else 0) = 0 := by
      simp [hpost]
    simp only [requestRaw, this]
    have h := rrLoop_count_le outcome 0 0 (none : Option JsErr)
      (none : Option (RawResponse T))
    have h1 : 1 ≤ (rrLoop outcome 0 0 (none : Option JsErr)
        (none : Option (RawResponse T))).1 := by
      unfold rrLoop
      cases outcome 0 with
      | success r => dsimp only; split <;> simp
      | failure e => simp
    omega
  · intro k hk
    simp only [requestRaw] at hk
    simpa using rrLoop_retry_transient outcome
      (if method = Method.GET then retries else 0) 0 none none k hk
  · intro hget htr
    simp only [requestRaw, hget, if_pos rfl]
    exact rrLoop_all_transient outcome htr retries 0 none none

/-- Witness for C8 at concrete inputs: a GET against a persistently failing
network consumes all `2 + 1` attempts, while a POST against the same network
consumes exactly one. -/
theorem c8_witness :
    (requestRaw (T := Nat) (fun _ => AttemptOutcome.failure ⟨true, false, none, none⟩)
        Method.GET 2).1 = 3
    ∧ (requestRaw (T := Nat) (fun _ => AttemptOutcome.failure ⟨true, false, none, none⟩)
        Method.POST 2).1 = 1 := by
  constructor
  · exact (c8_retry_policy (T := Nat)
      (fun _ => AttemptOutcome.failure ⟨true, false, none, none⟩) Method.GET 2).2.2.2
      rfl (fun k => by decide)
  · exact (c8_retry_policy (T := Nat)
      (fun _ => AttemptOutcome.failure ⟨true, false, none, none⟩) Method.POST 2).2.1 rfl

/-- A list leads with itself in front of any continuation. -/
theorem leadsWith_append : ∀ (a b : List Char), leadsWith a (a ++ b) = true := by
  intro a
  induction a with
  | nil => intro b; rfl
  | cons c t ih => intro b; simp [leadsWith, ih]

/-- A glob pattern that opens with literal (non-meta) characters only
matches strings that lead with exactly those characters. -/
theorem globF_lit : ∀ (pfxL : List Char), (∀ c ∈ pfxL, nonMeta c = true) →
    ∀ f p s, globF f (pfxL ++ p) s = true → leadsWith pfxL s = true := by
  intro pfxL
  induction pfxL with
  | nil => intro _ f p s _; rfl
  | cons c rest ih =>
    intro hm f p s hg
    cases f with
    | zero => simp [globF] at hg
    | succ f' =>
      have hc := hm c (List.mem_cons_self c rest)
      simp [nonMeta] at hc
      have hc1 : ¬ c = '*' := by tauto
      have hc2 : ¬ c = '?' := by tauto
      have hc3 : ¬ c = '[' := by tauto
      have hc4 : ¬ c = '\\' := by tauto
      rw [List.cons_append] at hg
      cases s with
      | nil =>
        unfold globF at hg
        rw [if_neg hc1] at hg
        cases hg
      | cons x s'' =>
        unfold globF at hg
        rw [if_neg hc1, if_neg hc2, if_neg hc3, if_neg hc4] at hg
        simp only [Bool.and_eq_true, beq_iff_eq] at hg
        obtain ⟨hx, hrec⟩ := hg
        have := ih (fun d hd => hm d (List.mem_cons_of_mem c hd)) f' p s'' hrec
        simp [leadsWith, hx, this]

/-- Every key in a chunk came from the chunked list. -/
theorem chunkF_subset {α : Type} (n : Nat) :
    ∀ f (l : List α) ks, ks ∈ chunkF n f l → ∀ k ∈ ks, k ∈ l := by
  intro f
  induction f with
  | zero => intro l ks h; simp [chunkF] at h
  | succ f' ih =>
    intro l ks h k hk
    cases l with
    | nil => simp [chunkF] at h
    | cons a t =>
      rw [chunkF] at h
      rcases List.mem_cons.mp h with h1 | h1
      · subst h1
        exact List.take_subset n (a :: t) hk
      · exact List.drop_subset n (a :: t) (ih _ ks h1 k hk)

/-- Matching any pattern of the form `proxy:GET:…` forces the `proxy:GET:`
namespace on the key. -/
theorem globMatch_ns (rest k : String) :
    globMatch (proxyGetNs ++ rest) k = true → strLeads proxyGetNs k = true := by
  intro h
  unfold globMatch at h
  rw [String.data_append] at h
  exact globF_lit proxyGetNs.data (by decide) _ rest.data k.data h

/-- Every command a pattern-scoped invalidation issues stays inside the
`proxy:GET:` namespace, a dry run deletes nothing and leaves the store
unchanged, and every key it removes was in the namespace. -/
theorem runScan_ns (store : List String) (scope rest : String) (dryRun : Bool) :
    (runScanInvalidate store scope (proxyGetNs ++ rest) dryRun
        |> fun out =>
      (∀ op ∈ out.2.2, opInNs op)
      ∧ (∀ k ∈ store, k ∉ out.2.1 → strLeads proxyGetNs k = true)
      ∧ (dryRun = true → out.1.deleted = 0 ∧ out.2.1 = store)) := by
  refine ⟨?_, ?_, ?_⟩
  · intro op hop
    simp only [runScanInvalidate] at hop
    rcases List.mem_cons.mp hop with h1 | h1
    · subst h1
      refine ⟨?_, fun k hk => globMatch_ns rest k hk⟩
      unfold strLeads
      rw [String.data_append]
      exact leadsWith_append proxyGetNs.data rest.data
    · rcases dryRun with _ | _
      · simp only [Bool.false_eq_true, if_false] at h1 ⊢
        simp only [List.mem_map] at h1
        obtain ⟨ks, hks, hop'⟩ := h1
        subst hop'
        intro k hk
        have hkm := chunkF_subset 100 _ _ ks hks k hk
        have := List.of_mem_filter hkm
        exact globMatch_ns rest k this
      · simp at h1
  · intro k hk hnot
    simp only [runScanInvalidate] at hnot
    rcases dryRun with _ | _
    · simp only [Bool.false_eq_true, if_false] at hnot
      by_cases hg : globMatch (proxyGetNs ++ rest) k = true
      · exact globMatch_ns rest k hg
      · exfalso
        exact hnot (List.mem_filter.mpr ⟨hk, by simp [hg]⟩)
    · simp at hnot
      exact absurd hk hnot
  · intro hd
    subst hd
    simp [runScanInvalidate]

/-- A strict invalidation keyed inside the namespace stays inside the
namespace, and a dry run deletes nothing and leaves the store unchanged. -/
theorem runStrict_ns (store : List String) (key : String) (dryRun : Bool)
    (hkey : strLeads proxyGetNs key = true) :
    (runStrictInvalidate store key dryRun
        |> fun out =>
      (∀ op ∈ out.2.2, opInNs op)
      ∧ (∀ k ∈ store, k ∉ out.2.1 → strLeads proxyGetNs k = true)
      ∧ (dryRun = true → out.1.deleted = 0 ∧ out.2.1 = store)) := by
  rcases dryRun with _ | _
  · refine ⟨?_, ?_, ?_⟩
    · intro op hop
      simp only [runStrictInvalidate, Bool.false_eq_true, if_false] at hop
      rcases List.mem_cons.mp hop with h1 | h1
      · subst h1
        intro k hk
        simp at hk
        subst hk
        exact hkey
      · simp at h1
    · intro k hk hnot
      simp only [runStrictInvalidate, Bool.false_eq_true, if_false] at hnot
      have : ¬ (k ∈ store ∧ (k != key) = true) := fun hc => hnot (List.mem_filter.mpr hc)
      have hkeq : k = key := by
        by_contra hne
        exact this ⟨hk, by simp [hne]⟩
      subst hkeq
      exact hkey
    · intro hd; cases hd
  · refine ⟨?_, ?_, ?_⟩
    · intro op hop
      simp only [runStrictInvalidate, if_true] at hop
      rcases List.mem_cons.mp hop with h1 | h1
      · subst h1; exact hkey
      · simp at h1
    · intro k hk hnot
      simp only [runStrictInvalidate, if_true] at hnot
      exact absurd hk hnot
    · intro _
      simp [runStrictInvalidate]

/-- Every strict cache key the invalidator builds begins with `proxy:GET:`. -/
theorem buildKey_ns (path : String) (h : Option Headers) :
    strLeads proxyGetNs (buildProxyCacheKey "GET" path h) = true := by
  unfold strLeads
  have hsplit : (buildProxyCacheKey "GET" path h).data
      = proxyGetNs.data ++ (path.data ++ (":".data ++
        ((normalizeHeaderValue (h.bind (hGet · "accept"))).data ++ ("|".data ++
        ((normalizeHeaderValue (h.bind (hGet · "accept-language"))).data ++ ("|".data ++
        (hashCredential (h.bind (hGet · "api_key")) "GET" path).data)))))) := by
    have hns : proxyGetNs.data = "proxy:".data ++ ("GET".data ++ ":".data) := by decide
    unfold buildProxyCacheKey
    simp only [String.data_append, hns, List.append_assoc]
  rw [hsplit]
  exact leadsWith_append _ _

/-- C7: every key the admin invalidator enumerates or deletes lies in the
`proxy:GET:` namespace — each SCAN MATCH pattern begins with `proxy:GET:`
and only matches keys beginning with `proxy:GET:`, each strict exact key
begins with `proxy:GET:`, each deleted key began with `proxy:GET:` — so no
key outside that namespace (e.g. the API-key registry) is enumerable or
deletable through this path; and with `dryRun` the result reports matched
counts while `deleted = 0` and the store is unchanged. -/
theorem c7_invalidator_namespace (input : InvInput) (store : List String)
    (res : InvResult) (store' : List String) (ops : List RedisOp)
    (hrun : invalidate input store = Except.ok (res, store', ops)) :
    (∀ op ∈ ops, opInNs op)
    ∧ (∀ k ∈ store, k ∉ store' → strLeads proxyGetNs k = true)
    ∧ (input.dryRun = true → res.deleted = 0 ∧ store' = store) := by
  cases input with
  | allScope dryRun =>
    simp only [invalidate, Except.ok.injEq] at hrun
    have h := runScan_ns store "all" "*" dryRun
    rw [hrun] at h
    exact ⟨h.1, h.2.1, fun hd => h.2.2 hd⟩
  | pfxScope pathPfx dryRun =>
    simp only [invalidate] at hrun
    cases hnorm : normalizePathPfx pathPfx with
    | error e => rw [hnorm] at hrun; cases hrun
    | ok np =>
      rw [hnorm] at hrun
      simp only [Except.map, Except.ok.injEq] at hrun
      have h := runScan_ns store "prefix" (escapeRedisGlob np ++ "*") dryRun
      have hassoc : proxyGetNs ++ (escapeRedisGlob np ++ "*")
          = proxyGetNs ++ escapeRedisGlob np ++ "*" := by
        simp [String.ext_iff, String.data_append, List.append_assoc]
      rw [hassoc, hrun] at h
      exact ⟨h.1, h.2.1, fun hd => h.2.2 hd⟩
  | exact path strict headers dryRun =>
    simp only [invalidate] at hrun
    cases hnorm : normalizePathWithOptionalQuery path with
    | error e => rw [hnorm] at hrun; cases hrun
    | ok np =>
      rw [hnorm] at hrun
      simp only [Except.map, Except.ok.injEq] at hrun
      cases strict with
      | true =>
        simp only [if_true] at hrun
        have h := runStrict_ns store
          (buildProxyCacheKey "GET" np (some (strictHdrsOf headers))) dryRun
          (buildKey_ns np (some (strictHdrsOf headers)))
        rw [hrun] at h
        exact ⟨h.1, h.2.1, fun hd => h.2.2 hd⟩
      | false =>
        simp only [Bool.false_eq_true, if_false] at hrun
        have h := runScan_ns store "exact" (escapeRedisGlob np ++ ":*") dryRun
        have hassoc : proxyGetNs ++ (escapeRedisGlob np ++ ":*")
            = proxyGetNs ++ escapeRedisGlob np ++ ":*" := by
          simp [String.ext_iff, String.data_append, List.append_assoc]
        rw [hassoc, hrun] at h
        exact ⟨h.1, h.2.1, fun hd => h.2.2 hd⟩

/-- Witness for C7 at a concrete store: a dry-run `all` invalidation over a
store holding one proxy key and one API-key-registry key deletes nothing
and leaves the store unchanged. -/
theorem c7_witness :
    ((invalidate (InvInput.allScope true) ["proxy:GET:/a:||x", "api-keys:key:k1"]
        = Except.ok (⟨"all", true, 1, 0⟩,
            ["proxy:GET:/a:||x", "api-keys:key:k1"],
            [RedisOp.scanOp "proxy:GET:*"]))
     ∧ (0 = 0 ∧ (["proxy:GET:/a:||x", "api-keys:key:k1"] : List String)
          = ["proxy:GET:/a:||x", "api-keys:key:k1"])) := by
  have heval : invalidate (InvInput.allScope true) ["proxy:GET:/a:||x", "api-keys:key:k1"]
      = Except.ok (⟨"all", true, 1, 0⟩,
          ["proxy:GET:/a:||x", "api-keys:key:k1"],
          [RedisOp.scanOp "proxy:GET:*"]) := by rfl
  have h := c7_invalidator_namespace (InvInput.allScope true)
    ["proxy:GET:/a:||x", "api-keys:key:k1"] ⟨"all", true, 1, 0⟩
    ["proxy:GET:/a:||x", "api-keys:key:k1"] [RedisOp.scanOp "proxy:GET:*"] heval
  exact ⟨heval, by
    have := h.2.2 rfl
    exact ⟨this.1 ▸ rfl, this.2⟩⟩

/-- The `leadsWith` is exactly prefix-ness. -/
theorem leadsWith_iff (n : List Char) : ∀ h, leadsWith n h = true ↔ ∃ t, h = n ++ t := by
  induction n with
  | nil => intro h; simp [leadsWith]
  | cons a n' ih =>
    intro h
    cases h with
    | nil =>
      simp [leadsWith]
    | cons b h' =>
      simp only [leadsWith, Bool.and_eq_true, beq_iff_eq, ih]
      constructor
      · rintro ⟨rfl, t, rfl⟩
        exact ⟨t, rfl⟩
      · rintro ⟨t, ht⟩
        rw [List.cons_append] at ht
        cases ht
        exact ⟨rfl, t, rfl⟩

/-- The `hasSub` is exactly substring occurrence. -/
theorem hasSub_iff (n : List Char) : ∀ h, hasSub n h = true ↔ ∃ u v, h = u ++ n ++ v := by
  intro h
  induction h with
  | nil =>
    simp only [hasSub, leadsWith_iff]
    constructor
    · rintro ⟨t, ht⟩
      exact ⟨[], t, by simpa using ht⟩
    · rintro ⟨u, v, huv⟩
      have hn : n = [] := by
        have := congrArg List.length huv
        simp at this
        exact List.eq_nil_of_length_eq_zero (by omega)
      exact ⟨[], by simp [hn]⟩
  | cons b h' ih =>
    simp only [hasSub, Bool.or_eq_true, leadsWith_iff, ih]
    constructor
    · rintro (⟨t, ht⟩ | ⟨u, v, huv⟩)
      · exact ⟨[], t, by simpa using ht⟩
      · exact ⟨b :: u, v, by simp [huv]⟩
    · rintro ⟨u, v, huv⟩
      cases u with
      | nil =>
        left
        exact ⟨v, by simpa using huv⟩
      | cons b' u' =>
        right
        rw [List.cons_append, List.cons_append] at huv
        cases huv
        exact ⟨u', v, rfl⟩

/-- An occurrence inside a concatenation lies in the left part, in the right
part, or straddles the boundary as a nonempty suffix of the left glued to a
nonempty part of the right. -/
theorem hasSub_append_cases (n A H : List Char) (h : hasSub n (A ++ H) = true) :
    hasSub n A = true ∨ hasSub n H = true ∨
      ∃ n1 n2 u v, n = n1 ++ n2 ∧ n1 ≠ [] ∧ n2 ≠ [] ∧ A = u ++ n1 ∧ H = n2 ++ v := by
  obtain ⟨u, v, huv⟩ := (hasSub_iff n (A ++ H)).mp h
  rw [List.append_assoc] at huv
  rcases List.append_eq_append_iff.mp huv with ⟨a', hu, hH⟩ | ⟨c', hA, hnv⟩
  · right; left
    rw [← List.append_assoc] at hH
    exact (hasSub_iff n H).mpr ⟨a', v, hH⟩
  · rcases List.append_eq_append_iff.mp hnv with ⟨b', hc', hv⟩ | ⟨d', hn, hH⟩
    · left
      subst hc'
      rw [← List.append_assoc] at hA
      exact (hasSub_iff n A).mpr ⟨u, b', hA⟩
    · cases hc'nil : c' with
      | nil =>
        right; left
        subst hc'nil
        simp at hn
        exact (hasSub_iff n H).mpr ⟨[], v, by simp [hH, hn]⟩
      | cons c0 ct =>
        cases hd'nil : d' with
        | nil =>
          left
          subst hd'nil
          simp at hn
          exact (hasSub_iff n A).mpr ⟨u, [], by simp [hA, hn]⟩
        | cons d0 dt =>
          right; right
          exact ⟨c', d', u, v, hn, by simp [hc'nil], by simp [hd'nil], hA, hH⟩

/-- If a list ending in `x` is split as `u ++ n1` with `n1` nonempty, then
`x` lands in `n1`. -/
theorem mem_of_suffix_concat {B u n1 : List Char} {x : Char}
    (h : B ++ [x] = u ++ n1) (hne : n1 ≠ []) : x ∈ n1 := by
  rcases List.eq_nil_or_concat n1 with rfl | ⟨n1', y, rfl⟩
  · exact absurd rfl hne
  · rw [List.concat_eq_append, ← List.append_assoc] at h
    have := (List.append_inj' h (by simp)).2
    simp at this
    subst this
    simp

/-- Lowercasing distributes over concatenation. -/
theorem lowL_append (a b : List Char) : lowL (a ++ b) = lowL a ++ lowL b :=
  List.map_append lowCh a b

/-- The cache key splits as the non-credential part followed by the
credential hash. -/
theorem key_data_split (m p : String) (h : Headers) :
    (buildProxyCacheKey m p (some h)).data
      = (keyPfxStr m p h).data ++ (hashCredential (hGet h "api_key") m p).data := by
  simp [buildProxyCacheKey, keyPfxStr, String.data_append, List.append_assoc,
    Option.bind]

/-- The non-credential part of a cache key ends with the `|` separator. -/
theorem keyPfx_ends_pipe (m p : String) (h : Headers) :
    ∃ B, (keyPfxStr m p h).data = B ++ ['|'] := by
  refine ⟨("proxy:" ++ m ++ ":" ++ p ++ ":"
    ++ normalizeHeaderValue (hGet h "accept") ++ "|"
    ++ normalizeHeaderValue (hGet h "accept-language")).data, ?_⟩
  rw [keyPfxStr, String.data_append]

/-- C2 counterexample: with `api_key: GET` on a `GET /x` request the raw
credential value occurs (case-insensitively, and in fact verbatim) inside
the cache key — the key begins `proxy:GET:` — so the claim that the key
never contains the raw `api_key` as a substring fails. -/
theorem c2_counterexample :
    hasSub (lowL "GET".data)
      (lowL (buildProxyCacheKey "GET" "/x" (some [("api_key", "GET")])).data) = true := by
  decide

/-- C2 (amended): the raw `api_key` only ever enters the cache key through
its SHA-256 hash, so it can appear as a substring only by textual
coincidence with the other key components. Whenever the (lowercased) raw
value does not occur inside the non-credential part
`proxy:{method}:{path}:{accept}|{accept-language}|`, does not contain the
`|` separator, and does not occur inside the 64-hex credential hash, the
key does not contain the raw `api_key` as a substring in any case. -/
theorem c2_no_raw_credential (m p : String) (h : Headers) (k : String)
    (hk : hGet h "api_key" = some k)
    (hA : hasSub (lowL k.data) (lowL (keyPfxStr m p h).data) = false)
    (hPipe : '|' ∉ lowL k.data)
    (hH : hasSub (lowL k.data) (lowL (hashCredential (some k) m p).data) = false) :
    hasSub (lowL k.data) (lowL (buildProxyCacheKey m p (some h)).data) = false := by
  by_contra hcon
  rw [Bool.not_eq_false] at hcon
  rw [key_data_split, hk, lowL_append] at hcon
  rcases hasSub_append_cases _ _ _ hcon with hcase | hcase | hcase
  · rw [hcase] at hA
    cases hA
  · rw [hcase] at hH
    cases hH
  · obtain ⟨n1, n2, u, v, hn, hn1, _, hAeq, _⟩ := hcase
    obtain ⟨B, hB⟩ := keyPfx_ends_pipe m p h
    rw [hB, lowL_append] at hAeq
    have hAeq' : lowL B ++ ['|'] = u ++ n1 := by
      have hlp : lowL ['|'] = ['|'] := rfl
      rw [hlp] at hAeq
      exact hAeq
    have hpipe_mem : '|' ∈ n1 := mem_of_suffix_concat hAeq' hn1
    exact hPipe (hn ▸ List.mem_append_left n2 hpipe_mem)

set_option maxRecDepth 40000 in
/-- Witness for C2 at a concrete request: the key built for
`GET /x` with `api_key: SecretKey99` does not contain the raw credential
(in any case). -/
theorem c2_witness :
    hasSub (lowL "SecretKey99".data)
      (lowL (buildProxyCacheKey "GET" "/x"
        (some [("api_key", "SecretKey99")])).data) = false := by
  exact c2_no_raw_credential "GET" "/x" [("api_key", "SecretKey99")] "SecretKey99"
    rfl (by decide) (by decide) (by decide)

/-- Every unicode scalar value is below `2^32`. -/
theorem charToNat_lt (c : Char) : c.toNat < 4294967296 :=
  Nat.lt_of_lt_of_le c.val.toNat_lt (by norm_num)

/-- The `Char.ofNat` of a valid scalar value reads back as that value. -/
theorem toNat_ofNat_valid (n : Nat) (h : n.isValidChar) : (Char.ofNat n).toNat = n := by
  simp [Char.ofNat, h, Char.ofNatAux, Char.toNat, UInt32.toNat, UInt32.ofNatCore,
    BitVec.toNat_ofNatLt]

/-- The `encCh` on a cons. -/
theorem encCh_cons (c : Char) (t : List Char) :
    encCh (c :: t) = c.toNat + 4294967296 * encCh t := rfl

/-- The `encCh` is injective on lists of equal length. -/
theorem encCh_inj : ∀ (l1 l2 : List Char), l1.length = l2.length →
    encCh l1 = encCh l2 → l1 = l2 := by
  intro l1
  induction l1 with
  | nil =>
    intro l2 hlen _
    cases l2 with
    | nil => rfl
    | cons b t => simp at hlen
  | cons a t ih =>
    intro l2 hlen henc
    cases l2 with
    | nil => simp at hlen
    | cons b t2 =>
      rw [encCh_cons, encCh_cons] at henc
      have ha := charToNat_lt a
      have hb := charToNat_lt b
      have heq1 : a.toNat = b.toNat := by omega
      have heq2 : encCh t = encCh t2 := by omega
      have hab : a = b := Char.ext (UInt32.ext heq1)
      have hlen' : t.length = t2.length := by simpa using hlen
      rw [hab, ih t2 hlen' heq2]

/-- The `encCh` is bounded by `2^32` to the length. -/
theorem encCh_lt : ∀ (l : List Char), encCh l < 4294967296 ^ l.length := by
  intro l
  induction l with
  | nil => simp [encCh]
  | cons a t ih =>
    rw [encCh_cons, List.length_cons, pow_succ]
    have ha := charToNat_lt a
    calc a.toNat + 4294967296 * encCh t
        < 4294967296 * (encCh t + 1) := by omega
      _ ≤ 4294967296 * 4294967296 ^ t.length := by
          exact Nat.mul_le_mul_left _ (by omega)
      _ = 4294967296 ^ t.length * 4294967296 := Nat.mul_comm _ _

/-- A character list of non-whitespace is its own JS trim. -/
theorem dropWhile_of_forall_false {p : Char → Bool} :
    ∀ l : List Char, (∀ c ∈ l, p c = false) → l.dropWhile p = l := by
  intro l h
  cases l with
  | nil => rfl
  | cons a t =>
    rw [List.dropWhile_cons, h a (List.mem_cons_self a t)]
    simp

/-- The `jsTrimL` leaves a whitespace-free list unchanged. -/
theorem jsTrimL_id (l : List Char) (h : ∀ c ∈ l, isJsWs c = false) : jsTrimL l = l := by
  unfold jsTrimL
  rw [dropWhile_of_forall_false l h,
    dropWhile_of_forall_false l.reverse (fun c hc => h c (List.mem_reverse.mp hc)),
    List.reverse_reverse]

/-- The repeated-`a` api_key is not the empty string. -/
theorem aKey_ne_empty (n : Nat) : aKey n ≠ "" := by
  simp [aKey, String.ext_iff]

/-- The repeated-`a` api_key is whitespace-free, so trimming fixes it. -/
theorem jsTrim_aKey (n : Nat) : jsTrim (aKey n) = aKey n := by
  have h : ∀ c ∈ List.replicate (n + 1) 'a', isJsWs c = false := by
    intro c hc
    rw [List.eq_of_mem_replicate hc]
    decide
  simp [jsTrim, aKey, jsTrimL_id _ h]

/-- The credential hash of the repeated-`a` api_key on `GET /`. -/
theorem hashCred_aKey (n : Nat) :
    hashCredential (some (aKey n)) "GET" "/"
      = sha256Hex ("GET" ++ ":" ++ "/" ++ ":" ++ aKey n) := by
  simp [hashCredential, jsTrim_aKey, aKey_ne_empty n]

/-- A SHA-256 hex digest always has 64 characters. -/
theorem sha256Hex_len (s : String) : (sha256Hex s).data.length = 64 := by
  simp [sha256Hex, hexOfState, hex8]

/-- Every `keyN` has exactly 78 characters: the 14 characters of
`proxy:GET:/:||` plus the 64-character credential hash. -/
theorem keyN_len (n : Nat) : (keyN n).data.length = 78 := by
  have h1 : hGet (hdr1 n) "accept" = none := rfl
  have h2 : hGet (hdr1 n) "accept-language" = none := rfl
  have h3 : hGet (hdr1 n) "api_key" = some (aKey n) := rfl
  simp only [keyN, buildProxyCacheKey, Option.bind, h1, h2, h3, hashCred_aKey,
    String.data_append, List.length_append, sha256Hex_len]
  rfl

/-- C5 counterexample (the claim's negation): the conjunct "two inputs that
differ only in the api_key header produce different keys" universally
quantified is provably false by counting — all such keys are 78-character
strings over a type of scalar values below `2^32`, a finite set, while the
api_keys range over an infinite set, so two distinct api_keys must share a
key (SHA-256, like any function into a finite range, has collisions; no
explicit pair is exhibitable, but existence is forced by the pigeonhole
principle). -/
theorem c5_counterexample :
    ¬ (∀ (m p : String) (h1 h2 : Headers),
        (∀ nm, nm ≠ "api_key" → hGet h1 nm = hGet h2 nm) →
        hGet h1 "api_key" ≠ hGet h2 "api_key" →
        buildProxyCacheKey m p (some h1) ≠ buildProxyCacheKey m p (some h2)) := by
  intro hclaim
  have hf : ∀ n : Nat, encCh (keyN n).data < 4294967296 ^ 78 := by
    intro n
    have := encCh_lt (keyN n).data
    rw [keyN_len n] at this
    exact this
  obtain ⟨n, n', hne, heq⟩ := Finite.exists_ne_map_eq_of_infinite
    (fun n : ℕ => (⟨encCh (keyN n).data, hf n⟩ : Fin (4294967296 ^ 78)))
  have hdata : (keyN n).data = (keyN n').data :=
    encCh_inj _ _ (by rw [keyN_len, keyN_len]) (by simpa using congrArg Fin.val heq)
  have hkeys : keyN n = keyN n' := String.ext hdata
  refine hclaim "GET" "/" (hdr1 n) (hdr1 n') ?_ ?_ hkeys
  · intro nm hnm
    have hb : (nm == "api_key") = false := by
      simp [hnm]
    simp [hGet, hdr1, List.lookup, hb]
  · intro hsome
    simp only [hGet, hdr1, List.lookup] at hsome
    have : aKey n = aKey n' := by simpa using hsome
    have hlen := congrArg (fun s : String => s.data.length) this
    simp [aKey] at hlen
    exact hne (by omega)

/-- Lowercasing never creates or destroys JS whitespace: the uppercase
letters are not whitespace and neither are their lowercase images. -/
theorem isJsWs_lowCh (c : Char) : isJsWs (lowCh c) = isJsWs c := by
  unfold lowCh
  split
  · next hAZ =>
    obtain ⟨h1, h2⟩ := hAZ
    have hval : (c.toNat + 32).isValidChar := Or.inl (by omega)
    have ht := toNat_ofNat_valid _ hval
    have hlow : isJsWs (Char.ofNat (c.toNat + 32)) = false := by
      simp [isJsWs, ht]
      omega
    have hc : isJsWs c = false := by
      simp [isJsWs]
      omega
    rw [hlow, hc]
  · rfl

/-- Case-variant header values normalize identically. -/
theorem normEq_of_lowEq (a1 a2 : String) (h : lowL a1.data = lowL a2.data) :
    normalizeHeaderValue (some a1) = normalizeHeaderValue (some a2) := by
  by_cases he : a1 = ""
  · have h2 : a2 = "" := by
      subst he
      have : lowL a2.data = [] := h.symm
      simp [lowL] at this
      exact String.ext this
    rw [he, h2]
  · have he2 : a2 ≠ "" := by
      intro hc
      subst hc
      simp [lowL] at h
      exact he (String.ext h)
    simp only [normalizeHeaderValue, if_neg he, if_neg he2]
    have hfun : isJsWs ∘ lowCh = isJsWs := funext isJsWs_lowCh
    have hcomm : ∀ l : List Char, jsTrimL (lowL l) = lowL (jsTrimL l) := by
      intro l
      unfold jsTrimL lowL
      rw [List.dropWhile_map, hfun, ← List.map_reverse, List.dropWhile_map, hfun,
        ← List.map_reverse]
    have hres : lowL (jsTrimL a1.data) = lowL (jsTrimL a2.data) := by
      rw [← hcomm, ← hcomm, h]
    exact congrArg String.mk hres

/-- C5 (amended): `buildProxyCacheKey` is deterministic — it depends only on
the `accept`, `accept-language` and `api_key` header values; two inputs that
differ only in the api_key header produce different keys **whenever their
credential hashes differ** (the only possible exception being an — never
exhibited — SHA-256 collision, cf. the counting argument refuting the
unconditional statement); and inputs differing only in the letter case of
`accept` (or `accept-language`) produce the same key. -/
theorem c5_key_discrimination (m p : String) (h1 h2 : Headers) :
    ((hGet h1 "accept" = hGet h2 "accept"
      ∧ hGet h1 "accept-language" = hGet h2 "accept-language"
      ∧ hGet h1 "api_key" = hGet h2 "api_key") →
        buildProxyCacheKey m p (some h1) = buildProxyCacheKey m p (some h2))
    ∧ ((∀ nm, nm ≠ "api_key" → hGet h1 nm = hGet h2 nm) →
        hashCredential (hGet h1 "api_key") m p ≠ hashCredential (hGet h2 "api_key") m p →
        buildProxyCacheKey m p (some h1) ≠ buildProxyCacheKey m p (some h2))
    ∧ (∀ a1 a2, hGet h1 "accept" = some a1 → hGet h2 "accept" = some a2 →
        lowL a1.data = lowL a2.data →
        hGet h1 "accept-language" = hGet h2 "accept-language" →
        hGet h1 "api_key" = hGet h2 "api_key" →
        buildProxyCacheKey m p (some h1) = buildProxyCacheKey m p (some h2))
    ∧ (∀ b1 b2, hGet h1 "accept-language" = some b1 →
        hGet h2 "accept-language" = some b2 →
        lowL b1.data = lowL b2.data →
        hGet h1 "accept" = hGet h2 "accept" →
        hGet h1 "api_key" = hGet h2 "api_key" →
        buildProxyCacheKey m p (some h1) = buildProxyCacheKey m p (some h2)) := by
  refine ⟨?_, ?_, ?_, ?_⟩
  · rintro ⟨ha, hal, hak⟩
    simp [buildProxyCacheKey, ha, hal, hak]
  · intro hsame hhash hkeys
    have hdata := congrArg String.data hkeys
    rw [key_data_split, key_data_split] at hdata
    have hpfx : keyPfxStr m p h1 = keyPfxStr m p h2 := by
      simp [keyPfxStr, hsame "accept" (by decide), hsame "accept-language" (by decide)]
    rw [hpfx] at hdata
    have := List.append_cancel_left hdata
    exact hhash (String.ext this)
  · intro a1 a2 ha1 ha2 hlow hal hak
    simp [buildProxyCacheKey, ha1, ha2, hal, hak, normEq_of_lowEq a1 a2 hlow]
  · intro b1 b2 hb1 hb2 hlow ha hak
    simp [buildProxyCacheKey, hb1, hb2, ha, hak, normEq_of_lowEq b1 b2 hlow]

set_option maxRecDepth 40000 in
/-- Witness for C5 at concrete inputs: identical inputs give identical keys;
`api_key: a` and `api_key: b` (distinct credential hashes, checked by
computation) give different keys; `accept: Application/JSON` and
`accept: application/json` give the same key; `accept-language: de-DE` and
`accept-language: DE-de` give the same key. -/
theorem c5_witness :
    (buildProxyCacheKey "GET" "/x" (some [("accept", "*/*")])
      = buildProxyCacheKey "GET" "/x" (some [("accept", "*/*")]))
    ∧ (buildProxyCacheKey "GET" "/x" (some [("api_key", "a")])
      ≠ buildProxyCacheKey "GET" "/x" (some [("api_key", "b")]))
    ∧ (buildProxyCacheKey "GET" "/x" (some [("accept", "Application/JSON")])
      = buildProxyCacheKey "GET" "/x" (some [("accept", "application/json")]))
    ∧ (buildProxyCacheKey "GET" "/x" (some [("accept-language", "de-DE")])
      = buildProxyCacheKey "GET" "/x" (some [("accept-language", "DE-de")])) := by
  refine ⟨?_, ?_, ?_, ?_⟩
  · exact (c5_key_discrimination "GET" "/x" [("accept", "*/*")] [("accept", "*/*")]).1
      ⟨rfl, rfl, rfl⟩
  · refine (c5_key_discrimination "GET" "/x" [("api_key", "a")] [("api_key", "b")]).2.1
      ?_ ?_
    · intro nm hnm
      have hb : (nm == "api_key") = false := by simp [hnm]
      simp [hGet, List.lookup, hb]
    · decide
  · exact (c5_key_discrimination "GET" "/x" [("accept", "Application/JSON")]
      [("accept", "application/json")]).2.2.1 "Application/JSON" "application/json"
      rfl rfl (by decide) rfl rfl
  · exact (c5_key_discrimination "GET" "/x" [("accept-language", "de-DE")]
      [("accept-language", "DE-de")]).2.2.2 "de-DE" "DE-de"
      rfl rfl (by decide) rfl rfl

end SvaBus
